import Mathlib

/-!
Project1: CPU scheduling policies (main.go)

A shallow embedding of the scheduling functions of `main.go`:
`FCFSSchedule`, `SJFPrioritySchedule`, `SJFSchedule`, `RRSchedule`, the
`PriorityQueue` methods and `addToWaitingQueue`.

Conventions of the embedding.

* An `int64` value is an `Int`; every `int64` sum and difference of the code
  is taken modulo `2^64` into `[-2^63, 2^63)` (`add64`, `sub64`).  The one
  difference kept exact is the table index `ProcessID - 1` (see `setSlot`).
* Every `float64` value the code computes is the image of an integer under
  rounding, hence an integer; it is an `Int` too.  `float64` rounds an integer
  to the nearest double (53 significant bits, ties to even), a float sum or
  difference is the rounded exact result, and `int64` converts back.
  `math.Max`, `math.Min` and `math.Round` act on such values as `max`, `min`
  and the identity.  A double outside `[-2^63, 2^63)` converts to an
  implementation-dependent `int64`; `int64` gives `-2^63` there.
* A schedule row is the list of seven strings `fmt.Sprint` makes of seven
  numbers; `fmt.Sprint` is injective on them, so a row is the record of the
  seven numbers (`Row`).  A slot of a `make([][]string, n)` table that was
  never assigned is `none`.
* The running totals and the three averages are only printed; they do not
  feed back into rows or trace and are left out.
* Loops whose termination depends on the input take a step budget (`fuel`);
  the result says whether the function returned, failed at run time (an
  index out of range) or was still looping when the budget ran out.
* `sort.Sort` is the standard library's sort.  On at most twelve elements it
  is a stable insertion sort, and `sortQueue` computes that list.  On longer
  queues only the order among entries that `Less` does not separate could
  differ; the general theorems below use nothing but the facts that sorting
  permutes the queue and leaves it in comparator order.
-/

namespace Project1

/-! ## Data model -/

/-- Go `Process` struct. -/
structure Process where
  ProcessID : Int
  ArrivalTime : Int
  BurstDuration : Int
  Priority : Int
deriving DecidableEq, Repr

/-- Go `TimeSlice` struct. -/
structure TimeSlice where
  PID : Int
  Start : Int
  Stop : Int
deriving DecidableEq, Repr

/-- One row of the schedule table: the seven columns, in the order the code
writes them (ID, Priority, Burst, Arrival, Wait, Turnaround, Exit). -/
structure Row where
  id : Int
  priority : Int
  burst : Int
  arrival : Int
  wait : Int
  turnaround : Int
  completion : Int
deriving DecidableEq, Repr

/-- Outcome of running a function of the program. -/
inductive Run (α : Type) where
  | done (a : α)
  | fault
  | outOfFuel
deriving DecidableEq, Repr

/-- What `FCFSSchedule` and `RRSchedule` hand to the output helpers. -/
structure Output where
  schedule : List Row
  gantt : List TimeSlice
deriving DecidableEq, Repr

/-- What `SJFPrioritySchedule` and `SJFSchedule` hand to the output helpers:
the table has one slot per input process, filled by process id. -/
structure SlotOutput where
  schedule : List (Option Row)
  gantt : List TimeSlice
deriving DecidableEq, Repr

/-! ## Machine arithmetic -/

/-- The `int64` value congruent to `x` modulo `2^64`. -/
def wrap64 (x : Int) : Int :=
  (x + 9223372036854775808) % 18446744073709551616 - 9223372036854775808

/-- The `int64` sum `a + b`. -/
def add64 (a b : Int) : Int :=
  wrap64 (a + b)

/-- The `int64` difference `a - b`. -/
def sub64 (a b : Int) : Int :=
  wrap64 (a - b)

/-- The spacing of the doubles around the natural number `m`: the least
`u` among `u0, 2 u0, 4 u0, ...` (at most `steps` doublings) with
`m < 2^53 * u`. -/
def ulpSearch (m : Nat) : Nat → Nat → Nat
  | 0, u => u
  | steps + 1, u => if m < 9007199254740992 * u then u else ulpSearch m steps (2 * u)

/-- The natural number `m` rounded to 53 significant bits, ties to even. -/
def roundNat (m : Nat) : Nat :=
  let u := ulpSearch m 64 1
  let q := m / u
  let r := m % u
  if 2 * r > u ∨ (2 * r = u ∧ q % 2 = 1) then (q + 1) * u else q * u

/-- The conversion `float64(x)` of an integer, and the rounding of an exact
integer result to a double. -/
def float64 (x : Int) : Int :=
  if x < 0 then -(roundNat x.natAbs : Int) else (roundNat x.natAbs : Int)

/-- The conversion `int64(f)` of a double with integer value `f`.  Outside
`[-2^63, 2^63)` the result is implementation-dependent; it is `-2^63` (the
amd64 result). -/
def int64 (f : Int) : Int :=
  if -9223372036854775808 ≤ f ∧ f < 9223372036854775808 then f else -9223372036854775808

/-- The function `math.Max` on doubles with integer value. -/
def mathMax (x y : Int) : Int :=
  max x y

/-- The function `math.Min` on doubles with integer value. -/
def mathMin (x y : Int) : Int :=
  min x y

/-- The function `math.Round` on a double with integer value. -/
def mathRound (x : Int) : Int :=
  x

/-- The `float64` sum `x + y`. -/
def floatAdd (x y : Int) : Int :=
  float64 (x + y)

/-- The `float64` difference `x - y`. -/
def floatSub (x y : Int) : Int :=
  float64 (x - y)

/-! ## FCFSSchedule (main.go 80-130) -/

/-- Loop variables of `FCFSSchedule`. -/
structure FCFSState where
  serviceTime : Int
  waitingTime : Int
  schedule : List Row
  gantt : List TimeSlice
deriving DecidableEq, Repr

/-- One iteration of the `for i := range processes` loop of `FCFSSchedule`. -/
def FCFSStep (st : FCFSState) (p : Process) : FCFSState :=
  let waitingTime :=
    if p.ArrivalTime > 0 then sub64 st.serviceTime p.ArrivalTime else st.waitingTime
  let start := add64 waitingTime p.ArrivalTime
  let turnaround := add64 p.BurstDuration waitingTime
  let completion := add64 (add64 p.BurstDuration p.ArrivalTime) waitingTime
  let serviceTime := add64 st.serviceTime p.BurstDuration
  { serviceTime := serviceTime
    waitingTime := waitingTime
    schedule := st.schedule ++
      [{ id := p.ProcessID, priority := p.Priority, burst := p.BurstDuration,
         arrival := p.ArrivalTime, wait := waitingTime, turnaround := turnaround,
         completion := completion }]
    gantt := st.gantt ++ [{ PID := p.ProcessID, Start := start, Stop := serviceTime }] }

/-- The loop of `FCFSSchedule` from a given state. -/
def FCFSLoop (st : FCFSState) (ps : List Process) : FCFSState :=
  ps.foldl FCFSStep st

/-- The function `FCFSSchedule`: rows and trace for a process list. -/
def FCFSSchedule (ps : List Process) : Output :=
  let st := FCFSLoop { serviceTime := 0, waitingTime := 0, schedule := [], gantt := [] } ps
  { schedule := st.schedule, gantt := st.gantt }

/-! ## PriorityQueue (main.go 192-223) -/

/-- The comparator `PriorityQueue.Less` on two entries. -/
def Less (a b : Process) : Bool :=
  if a.BurstDuration < b.BurstDuration then true
  else if a.BurstDuration = b.BurstDuration then decide (a.Priority > b.Priority)
  else false

/-- Insertion step of the insertion sort: `p` goes before the first entry that
is not `Less` than it. -/
def insertSorted (p : Process) : List Process → List Process
  | [] => [p]
  | q :: qs => if Less q p then q :: insertSorted p qs else p :: q :: qs

/-- The call `sort.Sort(pq)`. -/
def sortQueue : List Process → List Process
  | [] => []
  | p :: ps => insertSorted p (sortQueue ps)

/-- The method `PriorityQueue.enqueue`. -/
def enqueue (pq : List Process) (p : Process) : List Process :=
  sortQueue (pq ++ [p])

/-- The method `PriorityQueue.dequeue`; `none` is the index-out-of-range
failure of `(*pq)[0]` on an empty queue. -/
def dequeue : List Process → Option (Process × List Process)
  | [] => none
  | p :: rest => some (p, rest)

/-! ## addToWaitingQueue (main.go 226-238) -/

/-- The function `addToWaitingQueue`: the new `waiting` and the new `arrived`. -/
def addToWaitingQueue (waiting arrived : List Process) (serviceTime : Int) :
    List Process × List Process :=
  let appended := waiting ++ arrived.filter (fun p => decide (p.ArrivalTime ≤ serviceTime))
  let sorted := sortQueue appended
  let moved := arrived.takeWhile (fun p => decide (p.ArrivalTime ≤ serviceTime))
  (sorted ++ moved, arrived.dropWhile (fun p => decide (p.ArrivalTime ≤ serviceTime)))

/-! ## SJFPrioritySchedule (main.go 132-190) -/

/-- The assignment `schedule[idx] = row`; `none` is the index-out-of-range
failure.  Both callers pass `ProcessID - 1`, kept exact: the `int64`
difference wraps only at `ProcessID = -2^63`, to `2^63 - 1`, and no table has
that many slots, so the wrapped and the exact index fail alike. -/
def setSlot (schedule : List (Option Row)) (idx : Int) (r : Row) :
    Option (List (Option Row)) :=
  if 0 ≤ idx ∧ idx < schedule.length then some (schedule.set idx.toNat (some r)) else none

/-- Loop variables shared by `SJFPrioritySchedule` and `SJFSchedule`. -/
structure SJFState where
  serviceTime : Int
  arrived : List Process
  waiting : List Process
  schedule : List (Option Row)
  gantt : List TimeSlice
deriving DecidableEq, Repr

/-- The loop condition `len(waiting) > 0 || len(arrived) > 0`. -/
def SJFState.busy (st : SJFState) : Bool :=
  decide (st.waiting.length > 0) || decide (st.arrived.length > 0)

/-- One iteration of the main loop of `SJFPrioritySchedule`; `none` is a
run-time failure (index out of range). -/
def SJFPriorityIter (st : SJFState) : Option SJFState :=
  match st.waiting with
  | [] =>
    match st.arrived with
    | [] => none
    | a :: _ =>
      let wa := addToWaitingQueue st.waiting st.arrived a.ArrivalTime
      some { st with waiting := wa.1, arrived := wa.2 }
  | currentProcess :: rest =>
    let serviceStart :=
      int64 (mathMax (float64 st.serviceTime) (float64 currentProcess.ArrivalTime))
    let row : Row :=
      { id := currentProcess.ProcessID
        priority := currentProcess.Priority
        burst := currentProcess.BurstDuration
        arrival := currentProcess.ArrivalTime
        wait := sub64 serviceStart currentProcess.ArrivalTime
        turnaround :=
          floatAdd
            (mathRound (floatSub (float64 serviceStart) (float64 currentProcess.ArrivalTime)))
            (float64 currentProcess.BurstDuration)
        completion :=
          add64 (add64 (sub64 serviceStart currentProcess.ArrivalTime)
            currentProcess.BurstDuration) currentProcess.ArrivalTime }
    match setSlot st.schedule (currentProcess.ProcessID - 1) row with
    | none => none
    | some schedule =>
      let gantt := st.gantt ++
        [{ PID := currentProcess.ProcessID, Start := serviceStart,
           Stop := add64 serviceStart currentProcess.BurstDuration }]
      let serviceTime := add64 serviceStart currentProcess.BurstDuration
      let wa :=
        match st.arrived with
        | [] => (rest, st.arrived)
        | a :: _ =>
          if serviceTime ≥ a.ArrivalTime then addToWaitingQueue rest st.arrived serviceTime
          else (rest, st.arrived)
      some { serviceTime := serviceTime, arrived := wa.2, waiting := wa.1,
             schedule := schedule, gantt := gantt }

/-- The main loop of `SJFPrioritySchedule`, at most `fuel` iterations. -/
def SJFPriorityLoop : Nat → SJFState → Run SJFState
  | 0, st => if st.busy then .outOfFuel else .done st
  | fuel + 1, st =>
    if st.busy then
      match SJFPriorityIter st with
      | none => .fault
      | some st1 => SJFPriorityLoop fuel st1
    else .done st

/-- The state both SJF functions enter their main loop with: `arrived` is a
copy of the input and `addToWaitingQueue` has run at `arrived[0].ArrivalTime`;
`none` is the index-out-of-range failure of `arrived[0]` on an empty input. -/
def SJFInit (processes : List Process) : Option SJFState :=
  match processes with
  | [] => none
  | a :: _ =>
    let wa := addToWaitingQueue [] processes a.ArrivalTime
    some { serviceTime := 0, arrived := wa.2, waiting := wa.1,
           schedule := List.replicate processes.length none, gantt := [] }

/-- The function `SJFPrioritySchedule`. -/
def SJFPrioritySchedule (fuel : Nat) (processes : List Process) : Run SlotOutput :=
  match SJFInit processes with
  | none => .fault
  | some st0 =>
    match SJFPriorityLoop fuel st0 with
    | .done st => .done { schedule := st.schedule, gantt := st.gantt }
    | .fault => .fault
    | .outOfFuel => .outOfFuel

/-! ## SJFSchedule (main.go 244-322) -/

/-- The linear scan of `SJFSchedule` for the entry with the shortest burst. -/
def selectShortest (first : Process) (rest : List Process) : Process :=
  rest.foldl (fun nextProcess p =>
    if p.BurstDuration < nextProcess.BurstDuration then p else nextProcess) first

/-- One iteration of the main loop of `SJFSchedule`; `none` is a run-time
failure (index out of range). -/
def SJFIter (st : SJFState) : Option SJFState :=
  match st.waiting with
  | [] =>
    match st.arrived with
    | [] => none
    | a :: _ =>
      let wa := addToWaitingQueue st.waiting st.arrived a.ArrivalTime
      some { st with waiting := wa.1, arrived := wa.2 }
  | first :: rest =>
    let selected := selectShortest first rest
    let serviceStart :=
      if selected.ArrivalTime > st.serviceTime then selected.ArrivalTime else st.serviceTime
    let serviceTime := add64 serviceStart 1
    let nextProcess : Process :=
      { selected with BurstDuration := sub64 selected.BurstDuration 1 }
    let gantt := st.gantt ++
      [{ PID := nextProcess.ProcessID, Start := serviceStart, Stop := serviceTime }]
    if nextProcess.BurstDuration = 0 then
      let row : Row :=
        { id := nextProcess.ProcessID
          priority := nextProcess.Priority
          burst := add64 nextProcess.BurstDuration 1
          arrival := nextProcess.ArrivalTime
          wait := sub64 serviceStart nextProcess.ArrivalTime
          turnaround := sub64 serviceTime nextProcess.ArrivalTime
          completion := serviceTime }
      match setSlot st.schedule (nextProcess.ProcessID - 1) row with
      | none => none
      | some schedule =>
        let wa := addToWaitingQueue st.waiting st.arrived serviceTime
        some { serviceTime := serviceTime, arrived := wa.2, waiting := wa.1,
               schedule := schedule, gantt := gantt }
    else
      let wa1 := addToWaitingQueue rest st.arrived serviceTime
      let wa2 := addToWaitingQueue wa1.1 wa1.2 serviceTime
      some { serviceTime := serviceTime, arrived := wa2.2, waiting := wa2.1,
             schedule := st.schedule, gantt := gantt }

/-- The main loop of `SJFSchedule`, at most `fuel` iterations. -/
def SJFLoop : Nat → SJFState → Run SJFState
  | 0, st => if st.busy then .outOfFuel else .done st
  | fuel + 1, st =>
    if st.busy then
      match SJFIter st with
      | none => .fault
      | some st1 => SJFLoop fuel st1
    else .done st

/-- The function `SJFSchedule`. -/
def SJFSchedule (fuel : Nat) (processes : List Process) : Run SlotOutput :=
  match SJFInit processes with
  | none => .fault
  | some st0 =>
    match SJFLoop fuel st0 with
    | .done st => .done { schedule := st.schedule, gantt := st.gantt }
    | .fault => .fault
    | .outOfFuel => .outOfFuel

/-! ## RRSchedule (main.go 324-382) -/

/-- Loop variables of `RRSchedule`. -/
structure RRState where
  serviceTime : Int
  waiting : List Process
  schedule : List Row
  gantt : List TimeSlice
deriving DecidableEq, Repr

/-- One iteration of the loop of `RRSchedule`, with `p = waiting[0]` already
taken off the queue (`rest = waiting[1:]`). -/
def RRIter (quantum : Int) (st : RRState) (p : Process) (rest : List Process) : RRState :=
  let start := int64 (mathMax (float64 st.serviceTime) (float64 p.ArrivalTime))
  let duration := int64 (mathMin (float64 p.BurstDuration) (float64 quantum))
  let serviceTime := add64 st.serviceTime duration
  let p1 : Process := { p with BurstDuration := sub64 p.BurstDuration duration }
  let gantt := st.gantt ++ [{ PID := p1.ProcessID, Start := start, Stop := serviceTime }]
  if p1.BurstDuration > 0 then
    { serviceTime := serviceTime, waiting := rest ++ [p1], schedule := st.schedule,
      gantt := gantt }
  else
    let turnaround := sub64 serviceTime p1.ArrivalTime
    let waitingTime := sub64 start p1.ArrivalTime
    { serviceTime := serviceTime, waiting := rest,
      schedule := st.schedule ++
        [{ id := p1.ProcessID, priority := p1.Priority,
           burst := add64 p1.BurstDuration duration,
           arrival := p1.ArrivalTime, wait := waitingTime, turnaround := turnaround,
           completion := serviceTime }]
      gantt := gantt }

/-- The loop `for len(waiting) > 0` of `RRSchedule`, at most `fuel` iterations. -/
def RRLoop (quantum : Int) : Nat → RRState → Run RRState
  | 0, st =>
    match st.waiting with
    | [] => .done st
    | _ :: _ => .outOfFuel
  | fuel + 1, st =>
    match st.waiting with
    | [] => .done st
    | p :: rest => RRLoop quantum fuel (RRIter quantum st p rest)

/-- The function `RRSchedule`. -/
def RRSchedule (fuel : Nat) (processes : List Process) (quantum : Int) : Run Output :=
  match RRLoop quantum fuel
      { serviceTime := 0, waiting := processes, schedule := [], gantt := [] } with
  | .done st => .done { schedule := st.schedule, gantt := st.gantt }
  | .fault => .fault
  | .outOfFuel => .outOfFuel

/-! ## Properties of rows -/

/-- The row reports the static columns of process `p`. -/
def Row.isFor (r : Row) (p : Process) : Prop :=
  r.id = p.ProcessID ∧ r.priority = p.Priority ∧ r.burst = p.BurstDuration ∧
    r.arrival = p.ArrivalTime

instance (r : Row) (p : Process) : Decidable (r.isFor p) := by
  unfold Row.isFor
  exact inferInstance

/-- The two timing identities of a schedule row. -/
def Row.consistent (r : Row) : Prop :=
  r.turnaround = r.wait + r.burst ∧ r.completion = r.arrival + r.turnaround

instance (r : Row) : Decidable r.consistent := by
  unfold Row.consistent
  exact inferInstance

/-- The ids `1, 2, ..., n`. -/
def idRange (n : Nat) : List Int :=
  (List.range n).map (fun (i : Nat) => (i : Int) + 1)

/-- The columns of a row that are copied from the process: id, priority,
burst, arrival. -/
def Row.static (r : Row) : Int × Int × Int × Int :=
  (r.id, r.priority, r.burst, r.arrival)

/-! ## Concrete inputs -/

/-- The three processes of the specification's scenario, arriving at 0, 1, 2. -/
def threeJobs : List Process :=
  [{ ProcessID := 1, ArrivalTime := 0, BurstDuration := 5, Priority := 0 },
   { ProcessID := 2, ArrivalTime := 1, BurstDuration := 3, Priority := 0 },
   { ProcessID := 3, ArrivalTime := 2, BurstDuration := 1, Priority := 0 }]

/-- One process with id 1, arrival 0 and burst 1. -/
def unitJob : Process :=
  { ProcessID := 1, ArrivalTime := 0, BurstDuration := 1, Priority := 0 }

/-- Two processes in arrival order: id 1 arrives at 0 with burst 3, id 2
arrives at 5 with burst 2. -/
def sortedPair : List Process :=
  [{ ProcessID := 1, ArrivalTime := 0, BurstDuration := 3, Priority := 0 },
   { ProcessID := 2, ArrivalTime := 5, BurstDuration := 2, Priority := 0 }]

/-- The processes of `sortedPair` in the opposite order. -/
def swappedPair : List Process :=
  [{ ProcessID := 2, ArrivalTime := 5, BurstDuration := 2, Priority := 0 },
   { ProcessID := 1, ArrivalTime := 0, BurstDuration := 3, Priority := 0 }]

/-- One process with id 1 that arrives at `2^53 + 1`, the least positive
integer that is not a double, with burst 5. -/
def lateJob : Process :=
  { ProcessID := 1, ArrivalTime := 9007199254740993, BurstDuration := 5, Priority := 0 }

/-- One process with id 1, arrival 0 and burst `2^53 + 1`. -/
def longJob : Process :=
  { ProcessID := 1, ArrivalTime := 0, BurstDuration := 9007199254740993, Priority := 0 }

/-! ## Round-robin bookkeeping -/

/-- The ceiling of `b / q` for a positive quantum `q`. -/
def ceilDiv (b q : Int) : Int :=
  (b + q - 1) / q

/-- Number of trace slices with process id `pid`. -/
def sliceCount (pid : Int) (gantt : List TimeSlice) : Nat :=
  gantt.countP (fun s => decide (s.PID = pid))

/-- Slices still owed to process id `pid` by a round-robin queue: the sum of
`ceilDiv burst q` over the entries of the queue with that id. -/
def slicesDue (q pid : Int) : List Process → Int
  | [] => 0
  | p :: rest =>
    (if p.ProcessID = pid then ceilDiv p.BurstDuration q else 0) + slicesDue q pid rest

/-- Total remaining burst of a round-robin queue. -/
def work : List Process → Nat
  | [] => 0
  | p :: rest => p.BurstDuration.toNat + work rest

/-! ## Loop invariants of the SJF functions -/

/-- Invariant of the SJF loops with respect to the input `ps`: queue and pool
hold input processes only, and every row written so far is the row of an
input process. -/
def SJFInv (ps : List Process) (st : SJFState) : Prop :=
  (∀ p ∈ st.waiting, p ∈ ps) ∧ (∀ p ∈ st.arrived, p ∈ ps) ∧
    ∀ r, some r ∈ st.schedule → ∃ p ∈ ps, r.isFor p

/-- Bound on the remaining iterations of the SJFPriority loop, for a pool of
at most `N` processes. -/
def SJFPriorityMeasure (N : Nat) (st : SJFState) : Nat :=
  st.waiting.length + st.arrived.length * (N + 2)

/-- Conditions under which an iteration cannot fail: ids index the table. -/
def SJFSafe (N : Nat) (st : SJFState) : Prop :=
  (∀ p ∈ st.waiting, 1 ≤ p.ProcessID ∧ p.ProcessID ≤ N) ∧
    (∀ p ∈ st.arrived, 1 ≤ p.ProcessID ∧ p.ProcessID ≤ N) ∧
    st.schedule.length = N ∧ st.arrived.length ≤ N

/-- Every input process is still in the pool, or in the ready queue, or has
its row in the table slot of its id; the table has `ps.length` slots. -/
def SJFCovered (ps : List Process) (st : SJFState) : Prop :=
  st.schedule.length = ps.length ∧
    ∀ p ∈ ps, p ∈ st.arrived ∨ p ∈ st.waiting ∨
      ∃ r, st.schedule[(p.ProcessID - 1).toNat]? = some (some r) ∧ r.isFor p

/-- Range invariant of the SJFPriority loop for arrivals in `[0, A]` and
bursts in `[0, B]`: the clock is non-negative, the clock (or `A`) plus `B`
for every remaining iteration stays at most `2^53`, and every row written so
far satisfies the two timing identities. -/
def SJFInRange (A B : Int) (N : Nat) (st : SJFState) : Prop :=
  0 ≤ st.serviceTime ∧
    max st.serviceTime A + (SJFPriorityMeasure N st : Int) * B ≤ 9007199254740992 ∧
    st.arrived.length ≤ N ∧ ∀ r, some r ∈ st.schedule → r.consistent

/-! ## Order of the priority queue -/

/-- Two entries `x`, `y` are in comparator order (`x` may stand before `y`):
`x` has the shorter burst, or the bursts are equal and `x` has the larger or
equal priority value. -/
def inOrder (x y : Process) : Prop :=
  x.BurstDuration < y.BurstDuration ∨
    (x.BurstDuration = y.BurstDuration ∧ x.Priority ≥ y.Priority)

instance (x y : Process) : Decidable (inOrder x y) := by
  unfold inOrder
  exact inferInstance

/-! # Theorems -/

/-! ## Machine arithmetic: exact ranges -/

theorem wrap64_exact {x : Int} (h0 : -9223372036854775808 ≤ x)
    (h1 : x < 9223372036854775808) : wrap64 x = x := by
  unfold wrap64
  omega

theorem wrap64_le {x : Int} (h0 : -9223372036854775808 ≤ x) : wrap64 x ≤ x := by
  unfold wrap64
  omega

theorem wrap64_le_sub {x : Int} (h0 : 9223372036854775808 ≤ x) :
    wrap64 x ≤ x - 18446744073709551616 := by
  unfold wrap64
  omega

theorem wrap64_range (x : Int) :
    -9223372036854775808 ≤ wrap64 x ∧ wrap64 x < 9223372036854775808 := by
  unfold wrap64
  omega

theorem ulpSearch_small {m : Nat} (h : m < 9007199254740992) (steps : Nat) :
    ulpSearch m (steps + 1) 1 = 1 := by
  simp [ulpSearch, h]

theorem ulpSearch_scale (m : Nat) (steps u0 : Nat)
    (h : 9007199254740992 * u0 ≤ 2 * m) :
    9007199254740992 * ulpSearch m steps u0 ≤ 2 * m ∧ u0 ≤ ulpSearch m steps u0 := by
  induction steps generalizing u0 with
  | zero => exact ⟨h, le_refl _⟩
  | succ n ih =>
    unfold ulpSearch
    split
    · exact ⟨h, le_refl _⟩
    · rename_i hlt
      have := ih (2 * u0) (by omega)
      exact ⟨this.1, by omega⟩

theorem roundNat_exact {m : Nat} (h : m ≤ 9007199254740992) : roundNat m = m := by
  rcases Nat.lt_or_ge m 9007199254740992 with h1 | h1
  · simp [roundNat, ulpSearch_small h1, Nat.mod_one]
  · have : m = 9007199254740992 := by omega
    subst this
    decide

theorem roundNat_ge {m : Nat} (h : 9007199254740992 ≤ m) :
    9007199254740992 ≤ roundNat m := by
  have hstep : ulpSearch m 64 1 = ulpSearch m 63 2 := by
    show (if m < 9007199254740992 * 1 then 1 else ulpSearch m 63 (2 * 1)) = _
    rw [if_neg (by omega)]
  obtain ⟨hs1, hs2⟩ := ulpSearch_scale m 63 2 (by omega)
  have hq : 4503599627370496 ≤ m / ulpSearch m 63 2 := by
    rw [Nat.le_div_iff_mul_le (by omega)]
    omega
  have hqu : 9007199254740992 ≤ m / ulpSearch m 63 2 * ulpSearch m 63 2 := by
    calc 9007199254740992 = 4503599627370496 * 2 := by norm_num
      _ ≤ m / ulpSearch m 63 2 * ulpSearch m 63 2 := Nat.mul_le_mul hq hs2
  unfold roundNat
  simp only [hstep]
  split
  · calc 9007199254740992 ≤ m / ulpSearch m 63 2 * ulpSearch m 63 2 := hqu
      _ ≤ (m / ulpSearch m 63 2 + 1) * ulpSearch m 63 2 :=
        Nat.mul_le_mul_right _ (Nat.le_succ _)
  · exact hqu

theorem float64_exact {x : Int} (h0 : 0 ≤ x) (h1 : x ≤ 9007199254740992) :
    float64 x = x := by
  unfold float64
  rw [if_neg (by omega), roundNat_exact (by omega)]
  omega

theorem float64_ge {x : Int} (h : 9007199254740992 ≤ x) :
    9007199254740992 ≤ float64 x := by
  unfold float64
  rw [if_neg (by omega)]
  have := roundNat_ge (m := x.natAbs) (by omega)
  omega

theorem float64_pos {x : Int} (h : 1 ≤ x) : 1 ≤ float64 x := by
  rcases le_or_lt x 9007199254740992 with h1 | h1
  · rw [float64_exact (by omega) h1]
    exact h
  · have := float64_ge (le_of_lt h1)
    omega

theorem int64_exact {f : Int} (h0 : -9223372036854775808 ≤ f)
    (h1 : f < 9223372036854775808) : int64 f = f := by
  unfold int64
  rw [if_pos ⟨h0, h1⟩]

theorem int64_cases (f : Int) (h : 1 ≤ f) :
    (1 ≤ int64 f ∧ int64 f < 9223372036854775808) ∨ int64 f = -9223372036854775808 := by
  unfold int64
  split
  · left
    omega
  · right
    rfl

theorem add64_exact {a b : Int} (h0 : -9223372036854775808 ≤ a + b)
    (h1 : a + b < 9223372036854775808) : add64 a b = a + b :=
  wrap64_exact h0 h1

theorem sub64_exact {a b : Int} (h0 : -9223372036854775808 ≤ a - b)
    (h1 : a - b < 9223372036854775808) : sub64 a b = a - b :=
  wrap64_exact h0 h1

/-! ## Sorting and admission: basic facts -/

theorem insertSorted_perm (p : Process) (l : List Process) :
    (insertSorted p l).Perm (p :: l) := by
  induction l with
  | nil => simp [insertSorted]
  | cons q qs ih =>
    unfold insertSorted
    split
    · exact (List.Perm.cons q ih).trans (List.Perm.swap p q qs)
    · exact List.Perm.refl _

theorem sortQueue_perm (l : List Process) : (sortQueue l).Perm l := by
  induction l with
  | nil => simp [sortQueue]
  | cons p ps ih =>
    unfold sortQueue
    exact (insertSorted_perm p _).trans (List.Perm.cons p ih)

theorem mem_sortQueue {x : Process} {l : List Process} : x ∈ sortQueue l ↔ x ∈ l :=
  (sortQueue_perm l).mem_iff

theorem length_sortQueue (l : List Process) : (sortQueue l).length = l.length :=
  (sortQueue_perm l).length_eq

theorem mem_addToWaitingQueue_waiting {w a : List Process} {t : Int} {x : Process}
    (h : x ∈ (addToWaitingQueue w a t).1) : x ∈ w ∨ x ∈ a := by
  simp only [addToWaitingQueue, List.mem_append, mem_sortQueue, List.mem_filter] at h
  rcases h with (h | h) | h
  · exact Or.inl h
  · exact Or.inr h.1
  · exact Or.inr (List.takeWhile_subset _ h)

theorem mem_addToWaitingQueue_arrived (w a : List Process) (t : Int) {x : Process}
    (h : x ∈ (addToWaitingQueue w a t).2) : x ∈ a := by
  simp only [addToWaitingQueue] at h
  exact List.dropWhile_subset _ h

/-! ## FCFSSchedule: every row belongs to its process and is consistent -/

theorem FCFSLoop_rows (A B L : Int) (hB : 0 ≤ B)
    (hL : A + L ≤ 9007199254740992) (ps : List Process) (st : FCFSState)
    (qs : List Process)
    (hps : ∀ p ∈ ps, (0 ≤ p.ArrivalTime ∧ p.ArrivalTime ≤ A) ∧
      (0 ≤ p.BurstDuration ∧ p.BurstDuration ≤ B))
    (hst : 0 ≤ st.serviceTime ∧ st.serviceTime + (ps.length : Int) * B ≤ L ∧
      -A ≤ st.waitingTime ∧ st.waitingTime ≤ st.serviceTime)
    (h : List.Forall₂ (fun r p => r.isFor p ∧ r.consistent) st.schedule qs) :
    List.Forall₂ (fun r p => r.isFor p ∧ r.consistent) (FCFSLoop st ps).schedule (qs ++ ps) := by
  induction ps generalizing st qs with
  | nil => simpa [FCFSLoop] using h
  | cons p ps ih =>
    obtain ⟨hs0, hs1, hw0, hw1⟩ := hst
    obtain ⟨⟨ha0, ha1⟩, hb0, hb1⟩ := hps p (List.mem_cons_self _ _)
    have hlen : ((p :: ps).length : Int) * B = (ps.length : Int) * B + B := by
      push_cast [List.length_cons]
      ring
    rw [hlen] at hs1
    have hnn : 0 ≤ (ps.length : Int) * B := mul_nonneg (Int.ofNat_nonneg _) hB
    -- the wait of this iteration and its range
    have hwait : ∃ w, (if p.ArrivalTime > 0 then sub64 st.serviceTime p.ArrivalTime
        else st.waitingTime) = w ∧ -A ≤ w ∧ w ≤ st.serviceTime := by
      split
      · refine ⟨st.serviceTime - p.ArrivalTime, sub64_exact (by omega) (by omega), ?_, ?_⟩ <;>
          omega
      · exact ⟨st.waitingTime, rfl, hw0, hw1⟩
    obtain ⟨w, hw, hwl, hwu⟩ := hwait
    have e1 : add64 p.BurstDuration w = p.BurstDuration + w :=
      add64_exact (by omega) (by omega)
    have e2 : add64 p.BurstDuration p.ArrivalTime = p.BurstDuration + p.ArrivalTime :=
      add64_exact (by omega) (by omega)
    have e3 : add64 (p.BurstDuration + p.ArrivalTime) w = p.BurstDuration + p.ArrivalTime + w :=
      add64_exact (by omega) (by omega)
    have e4 : add64 st.serviceTime p.BurstDuration = st.serviceTime + p.BurstDuration :=
      add64_exact (by omega) (by omega)
    have hstep : List.Forall₂ (fun r p => r.isFor p ∧ r.consistent)
        (FCFSStep st p).schedule (qs ++ [p]) := by
      simp only [FCFSStep, hw, e1, e2, e3]
      refine List.rel_append h (List.Forall₂.cons ?_ List.Forall₂.nil)
      refine ⟨⟨rfl, rfl, rfl, rfl⟩, ?_, ?_⟩ <;> simp only <;> ring
    have hst1 : 0 ≤ (FCFSStep st p).serviceTime ∧
        (FCFSStep st p).serviceTime + (ps.length : Int) * B ≤ L ∧
        -A ≤ (FCFSStep st p).waitingTime ∧
        (FCFSStep st p).waitingTime ≤ (FCFSStep st p).serviceTime := by
      simp only [FCFSStep, hw, e4]
      refine ⟨?_, ?_, ?_, ?_⟩ <;> omega
    have := ih (FCFSStep st p) (qs ++ [p])
      (fun x hx => hps x (List.mem_cons_of_mem _ hx)) hst1 hstep
    simpa [FCFSLoop] using this

/-! ## SJFPrioritySchedule: rows written belong to input processes -/

theorem mem_setSlot {sched sched1 : List (Option Row)} {idx : Int} {r x : Row}
    (h : setSlot sched idx r = some sched1) (hx : some x ∈ sched1) :
    x = r ∨ some x ∈ sched := by
  unfold setSlot at h
  split at h
  · simp only [Option.some.injEq] at h
    subst h
    rcases List.mem_or_eq_of_mem_set hx with h1 | h1
    · exact Or.inr h1
    · exact Or.inl (Option.some.inj h1)
  · exact absurd h (by simp)

theorem SJFPriorityIter_inv {ps : List Process} {st st1 : SJFState}
    (hinv : SJFInv ps st) (h : SJFPriorityIter st = some st1) : SJFInv ps st1 := by
  obtain ⟨hw, ha, hr⟩ := hinv
  unfold SJFPriorityIter at h
  split at h
  · split at h
    · exact absurd h (by simp)
    · rename_i a rest hae
      simp only [Option.some.injEq] at h
      subst h
      refine ⟨?_, ?_, hr⟩
      · intro p hp
        rcases mem_addToWaitingQueue_waiting hp with h1 | h1
        · exact hw p h1
        · exact ha p h1
      · intro p hp
        simp only at hp
        exact ha p (mem_addToWaitingQueue_arrived _ _ _ hp)
  · rename_i cur rest hwe
    have hcur : cur ∈ ps := hw cur (by rw [hwe]; exact List.mem_cons_self _ _)
    have hrest : ∀ p ∈ rest, p ∈ ps := fun p hp => hw p (by rw [hwe]; exact List.mem_cons_of_mem _ hp)
    simp only at h
    split at h
    · exact absurd h (by simp)
    · rename_i sched hs
      simp only [Option.some.injEq] at h
      subst h
      refine ⟨?_, ?_, ?_⟩
      · intro p hp
        simp only at hp
        split at hp
        · exact hrest p hp
        · split at hp
          · rcases mem_addToWaitingQueue_waiting hp with h1 | h1
            · exact hrest p h1
            · exact ha p h1
          · exact hrest p hp
      · intro p hp
        simp only at hp
        split at hp
        · exact ha p hp
        · split at hp
          · exact ha p (mem_addToWaitingQueue_arrived _ _ _ hp)
          · exact ha p hp
      · intro r hrm
        rcases mem_setSlot hs hrm with h1 | h1
        · subst h1
          exact ⟨cur, hcur, rfl, rfl, rfl, rfl⟩
        · exact hr r h1

theorem SJFPriorityLoop_inv {ps : List Process} (fuel : Nat) {st st1 : SJFState}
    (hinv : SJFInv ps st) (h : SJFPriorityLoop fuel st = .done st1) : SJFInv ps st1 := by
  induction fuel generalizing st with
  | zero =>
    unfold SJFPriorityLoop at h
    split at h
    · exact absurd h (by simp)
    · simp only [Run.done.injEq] at h
      exact h ▸ hinv
  | succ n ih =>
    unfold SJFPriorityLoop at h
    split at h
    · split at h
      · exact absurd h (by simp)
      · rename_i st2 hst2
        exact ih (SJFPriorityIter_inv hinv hst2) h
    · simp only [Run.done.injEq] at h
      exact h ▸ hinv

theorem SJFInit_inv {ps : List Process} {st0 : SJFState} (h : SJFInit ps = some st0) :
    SJFInv ps st0 := by
  unfold SJFInit at h
  split at h
  · exact absurd h (by simp)
  · simp only [Option.some.injEq] at h
    subst h
    refine ⟨?_, ?_, ?_⟩
    · intro p hp
      rcases mem_addToWaitingQueue_waiting hp with h1 | h1
      · exact absurd h1 (by simp)
      · exact h1
    · intro p hp
      simp only at hp
      exact mem_addToWaitingQueue_arrived _ _ _ hp
    · intro r hrm
      simp only [List.mem_replicate] at hrm
      exact absurd hrm.2 (by simp)


/-! ## SJFPrioritySchedule: the loop returns -/

theorem addToWaitingQueue_lengths (w a : List Process) (t : Int) :
    ∃ m, m ≤ a.length ∧ (addToWaitingQueue w a t).2.length = a.length - m ∧
      (addToWaitingQueue w a t).1.length ≤ w.length + a.length + m ∧
      (∀ x rest, a = x :: rest → x.ArrivalTime ≤ t → 1 ≤ m) := by
  refine ⟨(a.takeWhile (fun p => decide (p.ArrivalTime ≤ t))).length, ?_, ?_, ?_, ?_⟩
  · exact (List.takeWhile_sublist _).length_le
  · have h := congrArg List.length
      (List.takeWhile_append_dropWhile (fun p => decide (p.ArrivalTime ≤ t)) a)
    simp only [List.length_append] at h
    simp only [addToWaitingQueue]
    omega
  · simp only [addToWaitingQueue, List.length_append, length_sortQueue]
    have := (List.filter_sublist (p := fun p => decide (p.ArrivalTime ≤ t)) a).length_le
    omega
  · intro x rest hx hle
    subst hx
    simp [List.takeWhile, hle]

theorem setSlot_isSome (sched : List (Option Row)) (idx : Int) (r : Row)
    (h0 : 0 ≤ idx) (h1 : idx < sched.length) :
    ∃ s, setSlot sched idx r = some s ∧ s.length = sched.length := by
  refine ⟨sched.set idx.toNat (some r), ?_, by simp⟩
  simp [setSlot, h0, h1]

theorem measure_drop (N w a m w1 a1 : Nat) (hm : 1 ≤ m) (hma : m ≤ a) (haN : a ≤ N)
    (ha1 : a1 = a - m) (hw1 : w1 ≤ w + a + m) :
    w1 + a1 * (N + 2) < w + a * (N + 2) := by
  subst ha1
  obtain ⟨d, rfl⟩ : ∃ d, a = m + d := ⟨a - m, by omega⟩
  have h1 : N ≤ m * N := Nat.le_mul_of_pos_left N hm
  have h2 : (m + d) * (N + 2) = m * N + 2 * m + d * (N + 2) := by ring
  simp only [Nat.add_sub_cancel_left]
  rw [h2]
  omega

theorem SJFPriorityIter_progress {N : Nat} {st : SJFState} (hs : SJFSafe N st)
    (hb : st.busy = true) :
    ∃ st1, SJFPriorityIter st = some st1 ∧ SJFSafe N st1 ∧
      SJFPriorityMeasure N st1 < SJFPriorityMeasure N st := by
  obtain ⟨t, a, w, sch, g⟩ := st
  obtain ⟨hw, ha, hlen, haN⟩ := hs
  simp only at hw ha hlen haN
  cases w with
  | nil =>
    cases a with
    | nil => simp [SJFState.busy] at hb
    | cons x rest =>
      obtain ⟨m, hm1, hm2, hm3, hm4⟩ := addToWaitingQueue_lengths [] (x :: rest) x.ArrivalTime
      have hm := hm4 x rest rfl (le_refl _)
      simp only [SJFPriorityIter]
      refine ⟨_, rfl, ?_⟩
      simp only [SJFSafe, SJFPriorityMeasure]
      refine ⟨⟨?_, ?_, hlen, ?_⟩, ?_⟩
      · intro p hp
        rcases mem_addToWaitingQueue_waiting hp with h1 | h1
        · exact absurd h1 (by simp)
        · exact ha p h1
      · intro p hp
        exact ha p (mem_addToWaitingQueue_arrived _ _ _ hp)
      · rw [hm2]
        omega
      · exact measure_drop N 0 (x :: rest).length m _ _ hm hm1 haN hm2 hm3
  | cons cur rest =>
    have hcur := hw cur (List.mem_cons_self _ _)
    have hrest : ∀ p ∈ rest, 1 ≤ p.ProcessID ∧ p.ProcessID ≤ N :=
      fun p hp => hw p (List.mem_cons_of_mem _ hp)
    have hidx : 0 ≤ cur.ProcessID - 1 ∧ cur.ProcessID - 1 < (sch.length : Int) := by omega
    simp only [SJFPriorityIter, setSlot, if_pos hidx]
    refine ⟨_, rfl, ?_⟩
    simp only [SJFSafe, SJFPriorityMeasure]
    have hsN : ∀ r : Row, (sch.set (cur.ProcessID - 1).toNat (some r)).length = N := by
      intro r
      rw [List.length_set]
      exact hlen
    cases a with
    | nil =>
      refine ⟨⟨hrest, ha, hsN _, haN⟩, ?_⟩
      simp
    | cons x xs =>
      simp only
      split
      · rename_i hge
        obtain ⟨m, hm1, hm2, hm3, hm4⟩ := addToWaitingQueue_lengths rest (x :: xs)
          (add64 (int64 (mathMax (float64 t) (float64 cur.ArrivalTime))) cur.BurstDuration)
        have hm := hm4 x xs rfl hge
        refine ⟨⟨?_, ?_, hsN _, ?_⟩, ?_⟩
        · intro p hp
          rcases mem_addToWaitingQueue_waiting hp with h1 | h1
          · exact hrest p h1
          · exact ha p h1
        · intro p hp
          exact ha p (mem_addToWaitingQueue_arrived _ _ _ hp)
        · rw [hm2]
          omega
        · have := measure_drop N rest.length (x :: xs).length m _ _ hm hm1 haN hm2 hm3
          simp only [List.length_cons] at this ⊢
          omega
      · refine ⟨⟨hrest, ha, hsN _, haN⟩, ?_⟩
        simp

theorem SJFPriorityLoop_returns {N : Nat} (fuel : Nat) (st : SJFState) (hs : SJFSafe N st)
    (hf : SJFPriorityMeasure N st ≤ fuel) : ∃ st1, SJFPriorityLoop fuel st = .done st1 := by
  induction fuel generalizing st with
  | zero =>
    have hz : SJFPriorityMeasure N st = 0 := by omega
    have hb : st.busy = false := by
      simp only [SJFPriorityMeasure, Nat.add_eq_zero, Nat.mul_eq_zero] at hz
      simp only [SJFState.busy]
      rcases hz with ⟨h1, h2⟩
      have h2 : st.arrived.length = 0 := by omega
      simp [h1, h2]
    exact ⟨st, by simp [SJFPriorityLoop, hb]⟩
  | succ n ih =>
    unfold SJFPriorityLoop
    cases hb : st.busy with
    | false => exact ⟨st, by simp⟩
    | true =>
      obtain ⟨st1, h1, h2, h3⟩ := SJFPriorityIter_progress hs hb
      simp only [h1, if_true]
      exact ih st1 h2 (by omega)

/-! ## Claim C1 -/


theorem idRange_bounds {n : Nat} {i : Int} (h : i ∈ idRange n) : 1 ≤ i ∧ i ≤ n := by
  simp only [idRange, List.mem_map, List.mem_range] at h
  obtain ⟨k, hk, rfl⟩ := h
  omega

theorem SJFInit_safe {ps : List Process}
    (hids : (ps.map (fun p => p.ProcessID)).Perm (idRange ps.length)) (hne : ps ≠ []) :
    ∃ st0, SJFInit ps = some st0 ∧ SJFSafe ps.length st0 := by
  have hb : ∀ p ∈ ps, 1 ≤ p.ProcessID ∧ p.ProcessID ≤ ps.length := fun p hp =>
    idRange_bounds (hids.mem_iff.mp (List.mem_map_of_mem _ hp))
  cases ps with
  | nil => exact absurd rfl hne
  | cons a rest =>
    refine ⟨_, rfl, ?_⟩
    simp only [SJFSafe]
    refine ⟨?_, ?_, by simp, ?_⟩
    · intro p hp
      rcases mem_addToWaitingQueue_waiting hp with h1 | h1
      · exact absurd h1 (by simp)
      · exact hb p h1
    · intro p hp
      exact hb p (mem_addToWaitingQueue_arrived _ _ _ hp)
    · exact (List.dropWhile_sublist _).length_le

theorem SJFPriorityIter_measure {N : Nat} {st st1 : SJFState} (haN : st.arrived.length ≤ N)
    (h : SJFPriorityIter st = some st1) :
    SJFPriorityMeasure N st1 < SJFPriorityMeasure N st ∧ st1.arrived.length ≤ N := by
  obtain ⟨t, a, w, sch, g⟩ := st
  simp only at haN
  cases w with
  | nil =>
    cases a with
    | nil => simp [SJFPriorityIter] at h
    | cons x rest =>
      obtain ⟨m, hm1, hm2, hm3, hm4⟩ := addToWaitingQueue_lengths [] (x :: rest) x.ArrivalTime
      have hm := hm4 x rest rfl (le_refl _)
      simp only [SJFPriorityIter, Option.some.injEq] at h
      subst h
      simp only [SJFPriorityMeasure]
      refine ⟨measure_drop N 0 (x :: rest).length m _ _ hm hm1 haN hm2 hm3, ?_⟩
      rw [hm2]
      omega
  | cons cur rest =>
    simp only [SJFPriorityIter] at h
    split at h
    · exact absurd h (by simp)
    · simp only [Option.some.injEq] at h
      subst h
      simp only [SJFPriorityMeasure]
      cases a with
      | nil => exact ⟨by simp, haN⟩
      | cons x xs =>
        simp only
        split
        · rename_i hge
          obtain ⟨m, hm1, hm2, hm3, hm4⟩ := addToWaitingQueue_lengths rest (x :: xs)
            (add64 (int64 (mathMax (float64 t) (float64 cur.ArrivalTime))) cur.BurstDuration)
          have hm := hm4 x xs rfl hge
          refine ⟨?_, ?_⟩
          · have := measure_drop N rest.length (x :: xs).length m _ _ hm hm1 haN hm2 hm3
            simp only [List.length_cons] at this ⊢
            omega
          · rw [hm2]
            omega
        · exact ⟨by simp, haN⟩

theorem dispatch_exact {t arr burst : Int} (ht : 0 ≤ t) (ha : 0 ≤ arr) (hb : 0 ≤ burst)
    (h : max t arr + burst ≤ 9007199254740992) :
    int64 (mathMax (float64 t) (float64 arr)) = max t arr ∧
    sub64 (max t arr) arr = max t arr - arr ∧
    floatAdd (mathRound (floatSub (float64 (max t arr)) (float64 arr))) (float64 burst) =
      max t arr - arr + burst ∧
    add64 (add64 (max t arr - arr) burst) arr = max t arr + burst ∧
    add64 (max t arr) burst = max t arr + burst := by
  have hm0 : 0 ≤ max t arr := le_max_of_le_left ht
  have hm1 : arr ≤ max t arr := le_max_right _ _
  have hm2 : t ≤ max t arr := le_max_left _ _
  have ft : float64 t = t := float64_exact ht (by omega)
  have fa : float64 arr = arr := float64_exact ha (by omega)
  have fb : float64 burst = burst := float64_exact hb (by omega)
  have fm : float64 (max t arr) = max t arr := float64_exact hm0 (by omega)
  refine ⟨?_, ?_, ?_, ?_, ?_⟩
  · rw [ft, fa]
    exact int64_exact (by unfold mathMax; omega) (by unfold mathMax; omega)
  · exact sub64_exact (by omega) (by omega)
  · have fs : float64 (max t arr - arr) = max t arr - arr :=
      float64_exact (by omega) (by omega)
    have fadd : float64 (max t arr - arr + burst) = max t arr - arr + burst :=
      float64_exact (by omega) (by omega)
    unfold floatAdd floatSub mathRound
    rw [fm, fa, fb, fs, fadd]
  · have e1 : add64 (max t arr - arr) burst = max t arr - arr + burst :=
      add64_exact (by omega) (by omega)
    have e2 : add64 (max t arr - arr + burst) arr = max t arr - arr + burst + arr :=
      add64_exact (by omega) (by omega)
    rw [e1, e2]
    ring
  · exact add64_exact (by omega) (by omega)

theorem SJFPriorityIter_range {ps : List Process} {A B : Int} {N : Nat} {st st1 : SJFState}
    (hps : ∀ p ∈ ps, (0 ≤ p.ArrivalTime ∧ p.ArrivalTime ≤ A) ∧
      (0 ≤ p.BurstDuration ∧ p.BurstDuration ≤ B))
    (hB : 0 ≤ B) (hw : ∀ p ∈ st.waiting, p ∈ ps)
    (hr : SJFInRange A B N st) (h : SJFPriorityIter st = some st1) :
    SJFInRange A B N st1 := by
  obtain ⟨ht, hphi, haN, hrows⟩ := hr
  obtain ⟨hmeas, haN1⟩ := SJFPriorityIter_measure haN h
  have hlt : (SJFPriorityMeasure N st1 : Int) + 1 ≤ (SJFPriorityMeasure N st : Int) := by
    exact_mod_cast hmeas
  have hmul : ((SJFPriorityMeasure N st1 : Int) + 1) * B ≤
      (SJFPriorityMeasure N st : Int) * B := mul_le_mul_of_nonneg_right hlt hB
  have hmul2 : ((SJFPriorityMeasure N st1 : Int) + 1) * B =
      (SJFPriorityMeasure N st1 : Int) * B + B := by ring
  rw [hmul2] at hmul
  have hMA : A ≤ max st.serviceTime A := le_max_right _ _
  have hMt : st.serviceTime ≤ max st.serviceTime A := le_max_left _ _
  unfold SJFPriorityIter at h
  split at h
  · -- admission only: the clock and the table are unchanged
    split at h
    · exact absurd h (by simp)
    · simp only [Option.some.injEq] at h
      subst h
      refine ⟨ht, ?_, haN1, hrows⟩
      simp only at hmul ⊢
      omega
  · rename_i cur rest hwe
    obtain ⟨⟨ha0, ha1⟩, hb0, hb1⟩ := hps cur (hw cur (by rw [hwe]; exact List.mem_cons_self _ _))
    have hbound : max st.serviceTime cur.ArrivalTime + cur.BurstDuration ≤
        9007199254740992 := by
      have : max st.serviceTime cur.ArrivalTime ≤ max st.serviceTime A :=
        max_le_max (le_refl _) ha1
      have hnn : 0 ≤ (SJFPriorityMeasure N st1 : Int) * B :=
        mul_nonneg (Int.ofNat_nonneg _) hB
      omega
    obtain ⟨e1, e2, e3, e4, e5⟩ := dispatch_exact ht ha0 hb0 hbound
    simp only [e1, e2, e3, e4, e5] at h
    split at h
    · exact absurd h (by simp)
    · rename_i sched hs
      simp only [Option.some.injEq] at h
      subst h
      have hss : 0 ≤ max st.serviceTime cur.ArrivalTime := le_max_of_le_left ht
      have hnew : max (max st.serviceTime cur.ArrivalTime + cur.BurstDuration) A ≤
          max st.serviceTime A + B := by
        apply max_le
        · have : max st.serviceTime cur.ArrivalTime ≤ max st.serviceTime A :=
            max_le_max (le_refl _) ha1
          omega
        · omega
      refine ⟨by simp only; omega, ?_, haN1, ?_⟩
      · simp only at hmul ⊢
        omega
      · intro r hrm
        rcases mem_setSlot hs hrm with h1 | h1
        · subst h1
          refine ⟨rfl, ?_⟩
          simp only
          ring
        · exact hrows r h1

theorem SJFPriorityLoop_range {ps : List Process} {A B : Int} {N : Nat}
    (hps : ∀ p ∈ ps, (0 ≤ p.ArrivalTime ∧ p.ArrivalTime ≤ A) ∧
      (0 ≤ p.BurstDuration ∧ p.BurstDuration ≤ B))
    (hB : 0 ≤ B) (fuel : Nat) {st st1 : SJFState} (hinv : SJFInv ps st)
    (hr : SJFInRange A B N st) (h : SJFPriorityLoop fuel st = .done st1) :
    SJFInRange A B N st1 := by
  induction fuel generalizing st with
  | zero =>
    unfold SJFPriorityLoop at h
    split at h
    · exact absurd h (by simp)
    · simp only [Run.done.injEq] at h
      exact h ▸ hr
  | succ n ih =>
    unfold SJFPriorityLoop at h
    split at h
    · split at h
      · exact absurd h (by simp)
      · rename_i st2 hst2
        exact ih (SJFPriorityIter_inv hinv hst2)
          (SJFPriorityIter_range hps hB hinv.1 hr hst2) h
    · simp only [Run.done.injEq] at h
      exact h ▸ hr

theorem SJFInit_range {ps : List Process} {A B : Int} {st0 : SJFState}
    (hA : 0 ≤ A) (hB : 0 ≤ B)
    (hbound : A + ((ps.length : Int) * ps.length + 2 * ps.length) * B ≤ 9007199254740992)
    (h : SJFInit ps = some st0) : SJFInRange A B ps.length st0 := by
  unfold SJFInit at h
  split at h
  · exact absurd h (by simp)
  · rename_i a rest
    simp only [Option.some.injEq] at h
    subst h
    obtain ⟨m, hm1, hm2, hm3, hm4⟩ := addToWaitingQueue_lengths [] (a :: rest) a.ArrivalTime
    have hm := hm4 a rest rfl (le_refl _)
    have hdrop := measure_drop (a :: rest).length 0 (a :: rest).length m _ _ hm hm1
      (le_refl _) hm2 hm3
    have hcast : ((SJFPriorityMeasure (a :: rest).length
        { serviceTime := 0, arrived := (addToWaitingQueue [] (a :: rest) a.ArrivalTime).2,
          waiting := (addToWaitingQueue [] (a :: rest) a.ArrivalTime).1,
          schedule := List.replicate (a :: rest).length none, gantt := [] } : Nat) : Int) ≤
        ((a :: rest).length : Int) * (a :: rest).length + 2 * (a :: rest).length := by
      simp only [SJFPriorityMeasure]
      have h2 : (0 + (a :: rest).length * ((a :: rest).length + 2) : Nat) =
          (a :: rest).length * (a :: rest).length + 2 * (a :: rest).length := by ring
      rw [h2] at hdrop
      exact_mod_cast le_of_lt hdrop
    have hmul := mul_le_mul_of_nonneg_right hcast hB
    refine ⟨le_refl _, ?_, ?_, ?_⟩
    · rw [max_eq_right hA]
      omega
    · simp only
      rw [hm2]
      omega
    · intro r hr
      simp only [List.mem_replicate] at hr
      exact absurd hr.2 (by simp)

/-- C1 (counterexample): on the single process `lateJob` (id 1, arrival
`2^53 + 1`, burst 5) the row `SJFPrioritySchedule` reports has wait 3,
turnaround 9 and completion `2^53 + 9`: turnaround is not wait + burst and
completion is not arrival + turnaround. -/
theorem C1_rounding_breaks_row :
    SJFPrioritySchedule 2 [lateJob] =
      .done
        { schedule :=
            [some { id := 1, priority := 0, burst := 5, arrival := 9007199254740993,
                    wait := 3, turnaround := 9, completion := 9007199254741001 }]
          gantt := [{ PID := 1, Start := 9007199254740992, Stop := 9007199254740997 },
            { PID := 1, Start := 9007199254740996, Stop := 9007199254741001 }] } ∧
    ¬ Row.consistent
        { id := 1, priority := 0, burst := 5, arrival := 9007199254740993,
          wait := 3, turnaround := 9, completion := 9007199254741001 } := by
  decide

/-- C1 (amended): for a process list with arrivals in `[0, A]` and bursts in
`[0, B]` where `A + (n^2 + 2 n) B <= 2^53` (`n` the number of processes),
every row of `FCFSSchedule` is the row of the process at the same position,
with that process's input burst and arrival, and satisfies
turnaround = wait + burst and completion = arrival + turnaround; when the ids
are a permutation of 1..n and the list is non-empty `SJFPrioritySchedule`
returns, and every row it writes is a row of an input process (same id,
priority, burst, arrival) satisfying the same two identities. -/
theorem C1_rows_consistent_in_range (ps : List Process) (A B : Int)
    (hA : ∀ p ∈ ps, 0 ≤ p.ArrivalTime ∧ p.ArrivalTime ≤ A)
    (hB : ∀ p ∈ ps, 0 ≤ p.BurstDuration ∧ p.BurstDuration ≤ B)
    (hbound : A + ((ps.length : Int) * ps.length + 2 * ps.length) * B ≤ 9007199254740992) :
    List.Forall₂ (fun r p => r.isFor p ∧ r.consistent) (FCFSSchedule ps).schedule ps ∧
    ((ps.map (fun p => p.ProcessID)).Perm (idRange ps.length) → ps ≠ [] →
      ∃ fuel out, SJFPrioritySchedule fuel ps = .done out) ∧
    (∀ fuel out, SJFPrioritySchedule fuel ps = .done out →
      ∀ r, some r ∈ out.schedule → r.consistent ∧ ∃ p ∈ ps, r.isFor p) := by
  have hps : ∀ p ∈ ps, (0 ≤ p.ArrivalTime ∧ p.ArrivalTime ≤ A) ∧
      (0 ≤ p.BurstDuration ∧ p.BurstDuration ≤ B) := fun p hp => ⟨hA p hp, hB p hp⟩
  refine ⟨?_, ?_, ?_⟩
  · cases hne : ps with
    | nil => exact List.Forall₂.nil
    | cons a rest =>
      rw [← hne]
      have ha := hA a (by rw [hne]; exact List.mem_cons_self _ _)
      have hb := hB a (by rw [hne]; exact List.mem_cons_self _ _)
      have hB0 : 0 ≤ B := by omega
      have hnn : 0 ≤ ((ps.length : Int) * ps.length + ps.length) * B :=
        mul_nonneg (by positivity) hB0
      have hsplit : ((ps.length : Int) * ps.length + 2 * ps.length) * B =
          ((ps.length : Int) * ps.length + ps.length) * B + (ps.length : Int) * B := by ring
      have := FCFSLoop_rows A B ((ps.length : Int) * B) hB0 (by omega) ps
        { serviceTime := 0, waitingTime := 0, schedule := [], gantt := [] } [] hps
        ⟨le_refl _, by simp, by simp only; omega, le_refl _⟩ List.Forall₂.nil
      simpa [FCFSSchedule] using this
  · intro hids hne
    obtain ⟨st0, h0, hsafe⟩ := SJFInit_safe hids hne
    obtain ⟨st1, h1⟩ := SJFPriorityLoop_returns (SJFPriorityMeasure ps.length st0) st0 hsafe
      (le_refl _)
    exact ⟨SJFPriorityMeasure ps.length st0, { schedule := st1.schedule, gantt := st1.gantt },
      by simp only [SJFPrioritySchedule, h0, h1]⟩
  · intro fuel out h r hr
    unfold SJFPrioritySchedule at h
    split at h
    · exact absurd h (by simp)
    · rename_i st0 h0
      split at h
      · rename_i st1 h1
        simp only [Run.done.injEq] at h
        subst h
        have hne : ps ≠ [] := by
          intro e
          rw [e] at h0
          simp [SJFInit] at h0
        obtain ⟨a, rest, hcons⟩ := List.exists_cons_of_ne_nil hne
        have ha := hA a (by rw [hcons]; exact List.mem_cons_self _ _)
        have hb := hB a (by rw [hcons]; exact List.mem_cons_self _ _)
        have hrange := SJFPriorityLoop_range hps (by omega) fuel (SJFInit_inv h0)
          (SJFInit_range (by omega) (by omega) hbound h0) h1
        exact ⟨hrange.2.2.2 r hr, (SJFPriorityLoop_inv fuel (SJFInit_inv h0) h1).2.2 r hr⟩
      · exact absurd h (by simp)
      · exact absurd h (by simp)

theorem C1_rows_consistent_in_range_witness :
    List.Forall₂ (fun r p => r.isFor p ∧ r.consistent) (FCFSSchedule threeJobs).schedule
        threeJobs ∧
    ((threeJobs.map (fun p => p.ProcessID)).Perm (idRange threeJobs.length) → threeJobs ≠ [] →
      ∃ fuel out, SJFPrioritySchedule fuel threeJobs = .done out) ∧
    (∀ fuel out, SJFPrioritySchedule fuel threeJobs = .done out →
      ∀ r, some r ∈ out.schedule → r.consistent ∧ ∃ p ∈ threeJobs, r.isFor p) :=
  C1_rows_consistent_in_range threeJobs 2 5 (by decide) (by decide) (by decide)

/-! ## RRSchedule: termination and slices per process -/

theorem slicesDue_append (q pid : Int) (l1 l2 : List Process) :
    slicesDue q pid (l1 ++ l2) = slicesDue q pid l1 + slicesDue q pid l2 := by
  induction l1 with
  | nil => simp [slicesDue]
  | cons p rest ih =>
    rw [List.cons_append]
    show _ + slicesDue q pid (rest ++ l2) = (_ + slicesDue q pid rest) + _
    rw [ih]
    ring

theorem work_append (l1 l2 : List Process) : work (l1 ++ l2) = work l1 + work l2 := by
  induction l1 with
  | nil => simp [work]
  | cons p rest ih =>
    rw [List.cons_append]
    show _ + work (rest ++ l2) = (_ + work rest) + _
    rw [ih]
    ring

theorem ceilDiv_sub (b q : Int) (hq : 1 ≤ q) : ceilDiv (b - q) q = ceilDiv b q - 1 := by
  unfold ceilDiv
  have h : b - q + q - 1 = (b + q - 1) + (-1) * q := by ring
  rw [h, Int.add_mul_ediv_right _ _ (by omega : q ≠ 0)]
  ring

theorem ceilDiv_small (b q : Int) (hb : 0 < b) (hbq : b ≤ q) : ceilDiv b q = 1 := by
  unfold ceilDiv
  have h : b + q - 1 = (b - 1) + 1 * q := by ring
  rw [h, Int.add_mul_ediv_right _ _ (by omega : q ≠ 0),
    Int.ediv_eq_zero_of_lt (by omega) (by omega)]
  rfl

theorem sliceCount_append_one (pid : Int) (g : List TimeSlice) (s : TimeSlice) :
    (sliceCount pid (g ++ [s]) : Int) = sliceCount pid g + (if s.PID = pid then 1 else 0) := by
  unfold sliceCount
  rw [List.countP_append]
  by_cases h : s.PID = pid <;> simp [List.countP_cons, h]

theorem RRIter_positive {q : Int} {st : RRState} {p : Process} {rest : List Process}
    (hall : ∀ x ∈ p :: rest, 0 < x.BurstDuration) :
    ∀ x ∈ (RRIter q st p rest).waiting, 0 < x.BurstDuration := by
  intro x hx
  unfold RRIter at hx
  simp only at hx
  split at hx
  · rename_i hpos
    simp only [List.mem_append, List.mem_singleton] at hx
    rcases hx with h | h
    · exact hall x (List.mem_cons_of_mem _ h)
    · subst h
      exact hpos
  · exact hall x (List.mem_cons_of_mem _ hx)

theorem duration_cases {b q : Int} (hb : 0 < b) (hq : 1 ≤ q) :
    (1 ≤ int64 (mathMin (float64 b) (float64 q)) ∧
        int64 (mathMin (float64 b) (float64 q)) < 9223372036854775808) ∨
      int64 (mathMin (float64 b) (float64 q)) = -9223372036854775808 :=
  int64_cases _ (le_min (float64_pos (by omega)) (float64_pos hq))

theorem duration_exact {b q : Int} (hb : 0 < b) (hb2 : b ≤ 9007199254740992) (hq : 1 ≤ q) :
    int64 (mathMin (float64 b) (float64 q)) = min b q := by
  have fb : float64 b = b := float64_exact (by omega) hb2
  rw [fb]
  rcases le_or_lt q 9007199254740992 with h | h
  · rw [float64_exact (by omega) h]
    have h1 : min b q ≤ b := min_le_left _ _
    have h2 : 1 ≤ min b q := le_min (by omega) hq
    exact int64_exact (by unfold mathMin; omega) (by unfold mathMin; omega)
  · have hf := float64_ge (le_of_lt h)
    have e1 : mathMin b (float64 q) = b := min_eq_left (by omega)
    have e2 : min b q = b := min_eq_left (by omega)
    rw [e1, e2]
    exact int64_exact (by omega) (by omega)

theorem sub64_decrease {b d : Int} (hb : 0 < b)
    (hd : (1 ≤ d ∧ d < 9223372036854775808) ∨ d = -9223372036854775808) :
    sub64 b d < b := by
  unfold sub64 at *
  rcases hd with ⟨h1, h2⟩ | h1
  · have := wrap64_le (x := b - d) (by omega)
    omega
  · have := wrap64_le_sub (x := b - d) (by omega)
    omega

theorem RRIter_small {q : Int} (hq : 1 ≤ q) {st : RRState} {p : Process}
    {rest : List Process}
    (hall : ∀ x ∈ p :: rest, 0 < x.BurstDuration ∧ x.BurstDuration ≤ 9007199254740992) :
    ∀ x ∈ (RRIter q st p rest).waiting,
      0 < x.BurstDuration ∧ x.BurstDuration ≤ 9007199254740992 := by
  intro x hx
  obtain ⟨hp, hp2⟩ := hall p (List.mem_cons_self _ _)
  have hd := duration_exact hp hp2 hq
  have h1 : min p.BurstDuration q ≤ p.BurstDuration := min_le_left _ _
  have h2 : 1 ≤ min p.BurstDuration q := le_min (by omega) hq
  have hs : sub64 p.BurstDuration (min p.BurstDuration q) =
      p.BurstDuration - min p.BurstDuration q := sub64_exact (by omega) (by omega)
  unfold RRIter at hx
  simp only [hd, hs] at hx
  split at hx
  · simp only [List.mem_append, List.mem_singleton] at hx
    rcases hx with h | h
    · exact hall x (List.mem_cons_of_mem _ h)
    · subst h
      simp only
      omega
  · exact hall x (List.mem_cons_of_mem _ hx)

theorem RRIter_count {q : Int} (hq : 1 ≤ q) (pid : Int) (st : RRState) (p : Process)
    (rest : List Process) (hp : 0 < p.BurstDuration)
    (hp2 : p.BurstDuration ≤ 9007199254740992) :
    (sliceCount pid (RRIter q st p rest).gantt : Int) + slicesDue q pid (RRIter q st p rest).waiting
      = sliceCount pid st.gantt + slicesDue q pid (p :: rest) := by
  have hd := duration_exact hp hp2 hq
  have h1 : min p.BurstDuration q ≤ p.BurstDuration := min_le_left _ _
  have h2 : 1 ≤ min p.BurstDuration q := le_min (by omega) hq
  have hs : sub64 p.BurstDuration (min p.BurstDuration q) =
      p.BurstDuration - min p.BurstDuration q := sub64_exact (by omega) (by omega)
  unfold RRIter
  simp only [hd, hs]
  split
  · rename_i hpos
    have hlt : q < p.BurstDuration := by
      rcases min_cases p.BurstDuration q with ⟨h3, _⟩ | ⟨h3, _⟩ <;> omega
    have hmin : min p.BurstDuration q = q := min_eq_right (le_of_lt hlt)
    rw [sliceCount_append_one, slicesDue_append]
    simp only [slicesDue, hmin, ceilDiv_sub _ _ hq]
    split <;> ring
  · rename_i hpos
    have hle : p.BurstDuration ≤ q := by
      rcases min_cases p.BurstDuration q with ⟨h3, _⟩ | ⟨h3, _⟩ <;> omega
    rw [sliceCount_append_one]
    simp only [slicesDue, ceilDiv_small _ _ hp hle]
    split <;> ring

theorem RRIter_work {q : Int} (hq : 1 ≤ q) (st : RRState) (p : Process)
    (rest : List Process) (hp : 0 < p.BurstDuration) :
    work (RRIter q st p rest).waiting < work (p :: rest) := by
  have hd := duration_cases hp hq
  unfold RRIter
  simp only
  split
  · rename_i hpos
    have := sub64_decrease hp hd
    rw [work_append]
    simp only [work]
    omega
  · simp only [work]
    omega

theorem RRLoop_count {q : Int} (hq : 1 ≤ q) (pid : Int) (fuel : Nat) (st st1 : RRState)
    (hall : ∀ x ∈ st.waiting, 0 < x.BurstDuration ∧ x.BurstDuration ≤ 9007199254740992)
    (h : RRLoop q fuel st = .done st1) :
    (sliceCount pid st1.gantt : Int) = sliceCount pid st.gantt + slicesDue q pid st.waiting := by
  induction fuel generalizing st with
  | zero =>
    unfold RRLoop at h
    split at h
    · rename_i hw
      simp only [Run.done.injEq] at h
      subst h
      simp [hw, slicesDue]
    · exact absurd h (by simp)
  | succ n ih =>
    unfold RRLoop at h
    split at h
    · rename_i hw
      simp only [Run.done.injEq] at h
      subst h
      simp [hw, slicesDue]
    · rename_i p rest hw
      rw [hw] at hall
      have := ih (RRIter q st p rest) (RRIter_small hq hall) h
      rw [this, hw]
      exact RRIter_count hq pid st p rest (hall p (List.mem_cons_self _ _)).1
        (hall p (List.mem_cons_self _ _)).2

theorem RRLoop_returns {q : Int} (hq : 1 ≤ q) (fuel : Nat) (st : RRState)
    (hall : ∀ x ∈ st.waiting, 0 < x.BurstDuration) (hf : work st.waiting ≤ fuel) :
    ∃ st1, RRLoop q fuel st = .done st1 := by
  induction fuel generalizing st with
  | zero =>
    unfold RRLoop
    split
    · exact ⟨st, rfl⟩
    · rename_i p rest hw
      rw [hw] at hall hf
      have := hall p (List.mem_cons_self _ _)
      simp only [work] at hf
      omega
  | succ n ih =>
    unfold RRLoop
    split
    · exact ⟨st, rfl⟩
    · rename_i p rest hw
      rw [hw] at hall hf
      have := RRIter_work hq st p rest (hall p (List.mem_cons_self _ _))
      exact ih (RRIter q st p rest) (RRIter_positive hall) (by omega)

theorem slicesDue_of_nodup (q : Int) (ps : List Process)
    (hid : (ps.map (fun p => p.ProcessID)).Nodup) (p : Process) (hp : p ∈ ps) :
    slicesDue q p.ProcessID ps = ceilDiv p.BurstDuration q := by
  induction ps with
  | nil => exact absurd hp (by simp)
  | cons x rest ih =>
    simp only [List.map_cons, List.nodup_cons, List.mem_map, not_exists, not_and] at hid
    have hzero : ∀ (l : List Process) (pid : Int), (∀ y ∈ l, y.ProcessID ≠ pid) →
        slicesDue q pid l = 0 := by
      intro l pid hl
      induction l with
      | nil => rfl
      | cons y ys ihy =>
        simp only [slicesDue]
        rw [if_neg (hl y (List.mem_cons_self _ _)),
          ihy (fun z hz => hl z (List.mem_cons_of_mem _ hz))]
        rfl
    rcases List.mem_cons.mp hp with h | h
    · subst h
      simp only [slicesDue, if_true]
      rw [hzero rest p.ProcessID (fun y hy => hid.1 y hy)]
      ring
    · have hne : x.ProcessID ≠ p.ProcessID := fun e => hid.1 p h e.symm
      simp only [slicesDue]
      rw [if_neg hne, ih hid.2 h]
      ring

/-! ## Claim C7 -/

/-- C7 (counterexample): on the single process `longJob` (id 1, arrival 0,
burst `2^53 + 1`) with quantum `2^62`, `RRSchedule` emits two trace slices for
the process, `[0, 2^53)` and `[2^53, 2^53 + 1)`, while `ceil(b / q)` is 1. -/
theorem C7_rounding_adds_a_slice :
    RRSchedule 2 [longJob] 4611686018427387904 =
      .done
        { schedule :=
            [{ id := 1, priority := 0, burst := 1, arrival := 0, wait := 9007199254740992,
               turnaround := 9007199254740993, completion := 9007199254740993 }]
          gantt := [{ PID := 1, Start := 0, Stop := 9007199254740992 },
            { PID := 1, Start := 9007199254740992, Stop := 9007199254740993 }] } ∧
    ceilDiv longJob.BurstDuration 4611686018427387904 = 1 := by
  decide

/-- C7 (amended): for pairwise distinct ids, bursts in `1 .. 2^53` and quantum
`q >= 1`, `RRSchedule` terminates (some step budget makes it return), and
whenever it returns the number of trace slices with a process's pid is
`ceil(b / q)` for that process's input burst `b`. -/
theorem C7_rr_slices_per_process_in_range (ps : List Process) (q : Int) (hq : 1 ≤ q)
    (hid : (ps.map (fun p => p.ProcessID)).Nodup)
    (hb : ∀ p ∈ ps, 0 < p.BurstDuration ∧ p.BurstDuration ≤ 9007199254740992) :
    (∃ fuel out, RRSchedule fuel ps q = .done out) ∧
    ∀ fuel out, RRSchedule fuel ps q = .done out →
      ∀ p ∈ ps, (sliceCount p.ProcessID out.gantt : Int) = ceilDiv p.BurstDuration q := by
  refine ⟨?_, ?_⟩
  · obtain ⟨st1, h1⟩ := RRLoop_returns hq (work ps)
      { serviceTime := 0, waiting := ps, schedule := [], gantt := [] }
      (fun p hp => (hb p hp).1) (le_refl _)
    exact ⟨work ps, { schedule := st1.schedule, gantt := st1.gantt },
      by simp only [RRSchedule, h1]⟩
  · intro fuel out h p hp
    unfold RRSchedule at h
    split at h
    · rename_i st1 h1
      simp only [Run.done.injEq] at h
      subst h
      have := RRLoop_count hq p.ProcessID fuel _ st1 hb h1
      simp only [sliceCount, List.countP_nil, Nat.cast_zero, zero_add] at this
      simp only [sliceCount]
      rw [this]
      exact slicesDue_of_nodup q ps hid p hp
    · exact absurd h (by simp)
    · exact absurd h (by simp)

theorem C7_rr_slices_per_process_in_range_witness :
    (∃ fuel out, RRSchedule fuel threeJobs 2 = .done out) ∧
    ∀ fuel out, RRSchedule fuel threeJobs 2 = .done out →
      ∀ p ∈ threeJobs, (sliceCount p.ProcessID out.gantt : Int) = ceilDiv p.BurstDuration 2 :=
  C7_rr_slices_per_process_in_range threeJobs 2 (by decide) (by decide) (by decide)

/-! ## Claim C2 -/

/-- C2 (evaluation at a failing input): on one process with arrival 0 and
burst 5 and quantum 2, `RRSchedule` reports burst 1 (the length of the last
slice, not the input burst 5) and wait 4, so turnaround 5 is neither
wait + input burst nor is the burst column the input burst. -/
theorem C2_rr_row_reports_last_slice :
    RRSchedule 3 [{ ProcessID := 1, ArrivalTime := 0, BurstDuration := 5, Priority := 0 }] 2 =
      .done
        { schedule :=
            [{ id := 1, priority := 0, burst := 1, arrival := 0, wait := 4, turnaround := 5,
               completion := 5 }]
          gantt := [{ PID := 1, Start := 0, Stop := 2 }, { PID := 1, Start := 2, Stop := 4 },
            { PID := 1, Start := 4, Stop := 5 }] } := by
  decide

/-! ## Claim C3 -/

/-- C3 (evaluation at a failing input): on one process arriving at time 3
with burst 2 (the CPU is idle until 3), `FCFSSchedule` reports wait -3 and a
trace slice starting at 0, not wait 0 and a slice starting at 3. -/
theorem C3_fcfs_idle_negative_wait :
    FCFSSchedule [{ ProcessID := 1, ArrivalTime := 3, BurstDuration := 2, Priority := 0 }] =
      { schedule :=
          [{ id := 1, priority := 0, burst := 2, arrival := 3, wait := -3, turnaround := -1,
             completion := 2 }]
        gantt := [{ PID := 1, Start := 0, Stop := 2 }] } := by
  decide

/-! ## Claim C4 -/

/-- C4 (evaluation): on the three processes of the specification's scenario
(`threeJobs`) `FCFSSchedule` reports waits [0,4,6] and turnarounds [5,7,7]; on two processes that both
arrive at 0 with bursts 5 and 3 it reports wait 0 and turnaround 3 for the
second process, not wait 5 (the burst before it) and turnaround 8. -/
theorem C4_fcfs_waits :
    (FCFSSchedule threeJobs).schedule.map (fun r => r.wait) = [0, 4, 6] ∧
    (FCFSSchedule threeJobs).schedule.map (fun r => r.turnaround) = [5, 7, 7] ∧
    FCFSSchedule
        [{ ProcessID := 1, ArrivalTime := 0, BurstDuration := 5, Priority := 0 },
         { ProcessID := 2, ArrivalTime := 0, BurstDuration := 3, Priority := 0 }] =
      { schedule :=
          [{ id := 1, priority := 0, burst := 5, arrival := 0, wait := 0, turnaround := 5,
             completion := 5 },
           { id := 2, priority := 0, burst := 3, arrival := 0, wait := 0, turnaround := 3,
             completion := 3 }]
        gantt := [{ PID := 1, Start := 0, Stop := 5 }, { PID := 2, Start := 0, Stop := 8 }] } := by
  decide

/-! ## Claim C5 -/

/-- C5 (evaluation at a failing input): on two processes arriving at 0 with
bursts 4 and 2 and quantum 4 (the largest burst), `RRSchedule` reports wait 4,
turnaround 6, completion 6 for the second process and `FCFSSchedule` reports
wait 0, turnaround 2, completion 2: the rows differ. -/
theorem C5_rr_fcfs_rows_differ :
    RRSchedule 2
        [{ ProcessID := 1, ArrivalTime := 0, BurstDuration := 4, Priority := 0 },
         { ProcessID := 2, ArrivalTime := 0, BurstDuration := 2, Priority := 0 }] 4 =
      .done
        { schedule :=
            [{ id := 1, priority := 0, burst := 4, arrival := 0, wait := 0, turnaround := 4,
               completion := 4 },
             { id := 2, priority := 0, burst := 2, arrival := 0, wait := 4, turnaround := 6,
               completion := 6 }]
          gantt := [{ PID := 1, Start := 0, Stop := 4 }, { PID := 2, Start := 4, Stop := 6 }] } ∧
    (FCFSSchedule
        [{ ProcessID := 1, ArrivalTime := 0, BurstDuration := 4, Priority := 0 },
         { ProcessID := 2, ArrivalTime := 0, BurstDuration := 2, Priority := 0 }]).schedule =
      [{ id := 1, priority := 0, burst := 4, arrival := 0, wait := 0, turnaround := 4,
         completion := 4 },
       { id := 2, priority := 0, burst := 2, arrival := 0, wait := 0, turnaround := 2,
         completion := 2 }] := by
  decide

/-! ## Claim C6 -/

/-- C6 (evaluation at a failing input): on the single process with arrival 0
and burst 4 and quantum 2, `RRSchedule` emits the trace [0,2), [2,4) and one
row with turnaround 4 and completion 4, but with wait 2 (and burst column 2),
not wait 0. -/
theorem C6_rr_single_process_wait :
    RRSchedule 2 [{ ProcessID := 1, ArrivalTime := 0, BurstDuration := 4, Priority := 0 }] 2 =
      .done
        { schedule :=
            [{ id := 1, priority := 0, burst := 2, arrival := 0, wait := 2, turnaround := 4,
               completion := 4 }]
          gantt := [{ PID := 1, Start := 0, Stop := 2 }, { PID := 1, Start := 2, Stop := 4 }] } := by
  decide

/-! ## Claim C8 -/

/-- C8 (evaluation at a failing input): on the single process with id 1,
arrival 0 and burst 5, `SJFPrioritySchedule` dispatches the process twice and
the row it finally reports has wait 5, turnaround 10 and completion 10, not
wait 0, turnaround 5 and completion 5. -/
theorem C8_sjfpriority_single_process_row :
    SJFPrioritySchedule 2
        [{ ProcessID := 1, ArrivalTime := 0, BurstDuration := 5, Priority := 0 }] =
      .done
        { schedule :=
            [some { id := 1, priority := 0, burst := 5, arrival := 0, wait := 5,
                    turnaround := 10, completion := 10 }]
          gantt := [{ PID := 1, Start := 0, Stop := 5 }, { PID := 1, Start := 5, Stop := 10 }] } := by
  decide

/-! ## Claim C9 -/

/-- C9 (evaluation at a failing input): on the three processes of the
specification's scenario (`threeJobs`)
(three processes) the trace of `SJFPrioritySchedule` has six slices, two for
every process, not three. -/
theorem C9_sjfpriority_trace_doubles :
    ∃ out, SJFPrioritySchedule 6 threeJobs = .done out ∧
      out.gantt =
        [{ PID := 1, Start := 0, Stop := 5 }, { PID := 3, Start := 5, Stop := 6 },
         { PID := 2, Start := 6, Stop := 9 }, { PID := 1, Start := 9, Stop := 14 },
         { PID := 2, Start := 14, Stop := 17 }, { PID := 3, Start := 17, Stop := 18 }] :=
  ⟨_, rfl, by decide⟩

/-! ## Claim C10 -/

theorem SJFIter_unitJob (st : SJFState) (hw : st.waiting = [unitJob, unitJob])
    (ha : st.arrived = []) (hs : st.schedule.length = 1) :
    ∃ st1, SJFIter st = some st1 ∧ st1.waiting = [unitJob, unitJob] ∧ st1.arrived = [] ∧
      st1.schedule.length = 1 := by
  obtain ⟨t, a, w, sch, g⟩ := st
  simp only at hw ha hs
  subst hw ha
  have hslot : ∀ r, setSlot sch (unitJob.ProcessID - 1) r = some (sch.set 0 (some r)) := by
    intro r
    simp [setSlot, unitJob, hs]
  have hburst : sub64 unitJob.BurstDuration 1 = 0 := by decide
  simp only [SJFIter, selectShortest, List.foldl, lt_irrefl, if_false, hslot]
  rw [if_pos hburst]
  refine ⟨_, rfl, ?_, ?_, ?_⟩
  · simp [addToWaitingQueue, sortQueue, insertSorted, Less]
  · simp [addToWaitingQueue]
  · simp [hs]

theorem SJFLoop_unitJob (fuel : Nat) (st : SJFState) (hw : st.waiting = [unitJob, unitJob])
    (ha : st.arrived = []) (hs : st.schedule.length = 1) :
    SJFLoop fuel st = .outOfFuel := by
  have hb : st.busy = true := by simp [SJFState.busy, hw]
  induction fuel generalizing st with
  | zero => simp [SJFLoop, hb]
  | succ n ih =>
    obtain ⟨st1, h1, hw1, ha1, hs1⟩ := SJFIter_unitJob st hw ha hs
    simp only [SJFLoop, hb, h1, if_true]
    exact ih st1 hw1 ha1 hs1 (by simp [SJFState.busy, hw1])

/-- C10 (evaluation at a failing input): on the single process with id 1,
arrival 0 and burst 1 the main loop of `SJFSchedule` never ends: whatever the
step budget, the function is still looping when it runs out. -/
theorem C10_sjf_loops_forever (fuel : Nat) :
    SJFSchedule fuel [unitJob] = .outOfFuel := by
  have h0 : SJFInit [unitJob] =
      some { serviceTime := 0, arrived := [], waiting := [unitJob, unitJob],
             schedule := [none], gantt := [] } := by
    decide
  have h1 := SJFLoop_unitJob fuel
    { serviceTime := 0, arrived := [], waiting := [unitJob, unitJob],
      schedule := [none], gantt := [] } rfl rfl rfl
  simp only [SJFSchedule, h0, h1]

/-! ## Claim C14 -/

/-- C14 (evaluation at a failing input): with an empty ready queue, the pool
holding the single process (id 1, arrival 0, burst 5) and time 0,
`addToWaitingQueue` leaves the pool empty and the queue holding that process
twice: the process is duplicated. -/
theorem C14_admission_duplicates :
    addToWaitingQueue []
        [{ ProcessID := 1, ArrivalTime := 0, BurstDuration := 5, Priority := 0 }] 0 =
      ([{ ProcessID := 1, ArrivalTime := 0, BurstDuration := 5, Priority := 0 },
        { ProcessID := 1, ArrivalTime := 0, BurstDuration := 5, Priority := 0 }], []) := by
  decide

/-! ## Claim C15 -/

theorem dropWhile_eq_filter_of_sorted (t : Int) (l : List Process)
    (hs : l.Pairwise (fun a b => a.ArrivalTime ≤ b.ArrivalTime)) :
    l.dropWhile (fun p => decide (p.ArrivalTime ≤ t)) =
      l.filter (fun p => decide (t < p.ArrivalTime)) := by
  induction l with
  | nil => rfl
  | cons x xs ih =>
    rw [List.pairwise_cons] at hs
    by_cases hx : x.ArrivalTime ≤ t
    · have hx2 : ¬ t < x.ArrivalTime := by omega
      simp only [List.dropWhile_cons, hx, decide_True, if_true, List.filter_cons, hx2,
        decide_False, Bool.false_eq_true, if_false]
      exact ih hs.2
    · have hx2 : t < x.ArrivalTime := by omega
      have hall : ∀ p ∈ xs, decide (t < p.ArrivalTime) = true := by
        intro p hp
        have := hs.1 p hp
        simp only [decide_eq_true_eq]
        omega
      simp only [List.dropWhile_cons, hx, decide_False, Bool.false_eq_true, if_false,
        List.filter_cons, hx2, decide_True, if_true]
      rw [List.filter_eq_self.mpr hall]

/-- C15: for a pool ordered by non-decreasing arrival time, any ready queue
and any time `t`, the pool after `addToWaitingQueue` is the sub-list of the
original pool of the processes with arrival > `t`, in their original order;
and when no process of the pool has arrival <= `t` the pool is unchanged. -/
theorem C15_pool_after_admission (waiting arrived : List Process) (t : Int)
    (hs : arrived.Pairwise (fun a b => a.ArrivalTime ≤ b.ArrivalTime)) :
    (addToWaitingQueue waiting arrived t).2 =
        arrived.filter (fun p => decide (t < p.ArrivalTime)) ∧
      ((∀ p ∈ arrived, t < p.ArrivalTime) →
        (addToWaitingQueue waiting arrived t).2 = arrived) := by
  have h1 : (addToWaitingQueue waiting arrived t).2 =
      arrived.filter (fun p => decide (t < p.ArrivalTime)) := by
    simp only [addToWaitingQueue]
    exact dropWhile_eq_filter_of_sorted t arrived hs
  refine ⟨h1, fun hall => ?_⟩
  rw [h1]
  exact List.filter_eq_self.mpr (fun p hp => by simpa using hall p hp)

theorem C15_pool_after_admission_witness :
    (addToWaitingQueue [] threeJobs 1).2 =
        threeJobs.filter (fun p => decide (1 < p.ArrivalTime)) ∧
      ((∀ p ∈ threeJobs, 1 < p.ArrivalTime) →
        (addToWaitingQueue [] threeJobs 1).2 = threeJobs) :=
  C15_pool_after_admission [] threeJobs 1 (by decide)

/-! ## Claim C16 -/

theorem inOrder_of_not_Less {x y : Process} (h : Less y x = false) : inOrder x y := by
  unfold Less at h
  unfold inOrder
  split at h
  · exact absurd h (by simp)
  · split at h
    · simp only [decide_eq_false_iff_not] at h
      right
      omega
    · left
      omega

theorem inOrder_of_Less {x y : Process} (h : Less x y = true) : inOrder x y := by
  unfold Less at h
  unfold inOrder
  split at h
  · left
    assumption
  · split at h
    · simp only [decide_eq_true_eq] at h
      right
      omega
    · exact absurd h (by simp)

theorem inOrder_trans {x y z : Process} (h1 : inOrder x y) (h2 : inOrder y z) :
    inOrder x z := by
  unfold inOrder at *
  omega

theorem insertSorted_pairwise (p : Process) (l : List Process)
    (h : l.Pairwise inOrder) : (insertSorted p l).Pairwise inOrder := by
  induction l with
  | nil => simp [insertSorted]
  | cons q qs ih =>
    rw [List.pairwise_cons] at h
    unfold insertSorted
    cases hl : Less q p with
    | true =>
      simp only [if_true]
      rw [List.pairwise_cons]
      refine ⟨fun z hz => ?_, ih h.2⟩
      rcases List.mem_cons.mp ((insertSorted_perm p qs).mem_iff.mp hz) with hz1 | hz1
      · subst hz1
        exact inOrder_of_Less hl
      · exact h.1 z hz1
    | false =>
      simp only [Bool.false_eq_true, if_false]
      have hpq : inOrder p q := inOrder_of_not_Less hl
      rw [List.pairwise_cons]
      refine ⟨fun z hz => ?_, List.pairwise_cons.mpr h⟩
      rcases List.mem_cons.mp hz with hz1 | hz1
      · subst hz1
        exact hpq
      · exact inOrder_trans hpq (h.1 z hz1)

theorem sortQueue_pairwise (l : List Process) : (sortQueue l).Pairwise inOrder := by
  induction l with
  | nil => simp [sortQueue]
  | cons p ps ih =>
    unfold sortQueue
    exact insertSorted_pairwise p _ ih

/-- C16: for every queue `q` (sorted or not) and process `p`, the queue after
`enqueue` is a permutation of `q` followed by `p`, and it is ordered by the
comparator: every entry is in comparator order with every later entry, in
particular every two adjacent entries `x`, `y` have `x.burst < y.burst`, or
`x.burst = y.burst` and `x.priority >= y.priority`. -/
theorem C16_enqueue_sorted_perm (q : List Process) (p : Process) :
    (enqueue q p).Perm (q ++ [p]) ∧ (enqueue q p).Pairwise inOrder ∧
      (enqueue q p).Chain' inOrder := by
  have hp : (enqueue q p).Pairwise inOrder := sortQueue_pairwise _
  exact ⟨sortQueue_perm _, hp, List.Pairwise.chain' hp⟩

/-! ## Claim C17 -/

/-- C17: `dequeue` fails exactly on the empty queue; on a non-empty queue it
returns the first entry and leaves the remaining entries in their order, one
entry fewer. -/
theorem C17_dequeue_head :
    (∀ q : List Process, dequeue q = none ↔ q = []) ∧
      ∀ (p : Process) (rest : List Process),
        dequeue (p :: rest) = some (p, rest) ∧ rest.length + 1 = (p :: rest).length := by
  refine ⟨?_, ?_⟩
  · intro q
    cases q <;> simp [dequeue]
  · intro p rest
    exact ⟨rfl, rfl⟩

/-! ## Claim C18 -/

theorem RRIter_ids (q : Int) (st : RRState) (p : Process) (rest : List Process) :
    ((RRIter q st p rest).schedule.map (fun r => r.id) ++
        (RRIter q st p rest).waiting.map (fun x => x.ProcessID)).Perm
      (st.schedule.map (fun r => r.id) ++ (p :: rest).map (fun x => x.ProcessID)) := by
  unfold RRIter
  simp only
  split
  · simp only [List.map_append, List.map_cons, List.map_nil]
    refine List.Perm.append_left _ ?_
    exact List.perm_append_singleton _ _
  · simp only [List.map_append, List.map_cons, List.map_nil, List.append_assoc,
      List.singleton_append]
    exact List.Perm.refl _

theorem RRLoop_ids (q : Int) (fuel : Nat) (st st1 : RRState)
    (h : RRLoop q fuel st = .done st1) :
    (st1.schedule.map (fun r => r.id)).Perm
      (st.schedule.map (fun r => r.id) ++ st.waiting.map (fun x => x.ProcessID)) := by
  induction fuel generalizing st with
  | zero =>
    unfold RRLoop at h
    split at h
    · rename_i hw
      simp only [Run.done.injEq] at h
      subst h
      simp [hw]
    · exact absurd h (by simp)
  | succ n ih =>
    unfold RRLoop at h
    split at h
    · rename_i hw
      simp only [Run.done.injEq] at h
      subst h
      simp [hw]
    · rename_i p rest hw
      rw [hw]
      exact (ih (RRIter q st p rest) h).trans (RRIter_ids q st p rest)

/-- C18: for pairwise distinct ids, positive bursts and quantum `q >= 1`
(whatever the arrivals), `RRSchedule` returns, and whenever it returns it has
written exactly one row per input process: the number of rows is the number
of processes and every process id occurs in exactly one row. -/
theorem C18_rr_one_row_per_process (ps : List Process) (q : Int) (hq : 1 ≤ q)
    (hid : (ps.map (fun p => p.ProcessID)).Nodup)
    (hb : ∀ p ∈ ps, 0 < p.BurstDuration) :
    (∃ fuel out, RRSchedule fuel ps q = .done out) ∧
    ∀ fuel out, RRSchedule fuel ps q = .done out →
      out.schedule.length = ps.length ∧
        ∀ p ∈ ps, (out.schedule.map (fun r => r.id)).count p.ProcessID = 1 := by
  refine ⟨?_, ?_⟩
  · obtain ⟨st1, h1⟩ := RRLoop_returns hq (work ps)
      { serviceTime := 0, waiting := ps, schedule := [], gantt := [] } hb (le_refl _)
    exact ⟨work ps, { schedule := st1.schedule, gantt := st1.gantt },
      by simp only [RRSchedule, h1]⟩
  · intro fuel out h
    unfold RRSchedule at h
    split at h
    · rename_i st1 h1
      simp only [Run.done.injEq] at h
      subst h
      have hperm := RRLoop_ids q fuel _ st1 h1
      simp only [List.map_nil, List.nil_append] at hperm
      refine ⟨?_, fun p hp => ?_⟩
      · simpa using hperm.length_eq
      · simp only
        rw [hperm.count_eq]
        exact List.count_eq_one_of_mem hid (List.mem_map_of_mem _ hp)
    · exact absurd h (by simp)
    · exact absurd h (by simp)

theorem C18_rr_one_row_per_process_witness :
    (∃ fuel out, RRSchedule fuel threeJobs 2 = .done out) ∧
    ∀ fuel out, RRSchedule fuel threeJobs 2 = .done out →
      out.schedule.length = threeJobs.length ∧
        ∀ p ∈ threeJobs, (out.schedule.map (fun r => r.id)).count p.ProcessID = 1 :=
  C18_rr_one_row_per_process threeJobs 2 (by decide) (by decide) (by decide)

/-! ## Claim C19 -/

/-- C19 (evaluation at a failing input): on the single process arriving at 3
with burst 2 and quantum 5, `RRSchedule` emits the slice with start 3 and
stop 2: the stop is the clock before the idle gap plus the run
(0 + 2), not start + run, and it is not after the start. -/
theorem C19_rr_slice_stops_before_start :
    RRSchedule 1 [{ ProcessID := 1, ArrivalTime := 3, BurstDuration := 2, Priority := 0 }] 5 =
      .done
        { schedule :=
            [{ id := 1, priority := 0, burst := 2, arrival := 3, wait := 0, turnaround := -1,
               completion := 2 }]
          gantt := [{ PID := 1, Start := 3, Stop := 2 }] } := by
  decide

/-! ## Claim C11 -/

/-- C11 (evaluation at a failing input): on the single process with id 1,
arrival 0 and burst 3, `SJFSchedule` terminates after emitting two unit
slices (and without writing a row), although the sum of the bursts is 3. -/
theorem C11_sjf_unit_slices_short :
    SJFSchedule 2 [{ ProcessID := 1, ArrivalTime := 0, BurstDuration := 3, Priority := 0 }] =
      .done
        { schedule := [none]
          gantt := [{ PID := 1, Start := 0, Stop := 1 }, { PID := 1, Start := 1, Stop := 2 }] } := by
  decide

/-! ## Claim C12 -/

/-- C12 (evaluation at the failing input): on the empty process list
`FCFSSchedule` and `RRSchedule` (any quantum, any step budget) return zero
rows and an empty trace, but `SJFPrioritySchedule` and `SJFSchedule` fail at
run time, whatever the step budget: `arrived[0]` is out of range. -/
theorem C12_empty_input :
    FCFSSchedule [] = { schedule := [], gantt := [] } ∧
    (∀ (fuel : Nat) (q : Int), RRSchedule fuel [] q = .done { schedule := [], gantt := [] }) ∧
    (∀ fuel : Nat, SJFPrioritySchedule fuel [] = .fault) ∧
    (∀ fuel : Nat, SJFSchedule fuel [] = .fault) := by
  refine ⟨rfl, ?_, fun _ => rfl, fun _ => rfl⟩
  intro fuel q
  cases fuel <;> rfl

/-! ## Claim C20 -/

/-- C20 (evaluation at a failing input): on the three processes of the
specification's scenario (`threeJobs`), after two iterations of the main loop
of `SJFPrioritySchedule` the ready queue is [p2, p1, p2, p3] (bursts 3, 5, 3,
1): the next dispatch takes the head p2 with burst 3 although p3 with the
strictly smaller burst 1 is in the queue. -/
theorem C20_dispatch_not_minimal :
    ∃ st, ((SJFInit threeJobs).bind SJFPriorityIter).bind SJFPriorityIter = some st ∧
      st.waiting =
        [{ ProcessID := 2, ArrivalTime := 1, BurstDuration := 3, Priority := 0 },
         { ProcessID := 1, ArrivalTime := 0, BurstDuration := 5, Priority := 0 },
         { ProcessID := 2, ArrivalTime := 1, BurstDuration := 3, Priority := 0 },
         { ProcessID := 3, ArrivalTime := 2, BurstDuration := 1, Priority := 0 }] ∧
      dequeue st.waiting =
        some ({ ProcessID := 2, ArrivalTime := 1, BurstDuration := 3, Priority := 0 },
          [{ ProcessID := 1, ArrivalTime := 0, BurstDuration := 5, Priority := 0 },
           { ProcessID := 2, ArrivalTime := 1, BurstDuration := 3, Priority := 0 },
           { ProcessID := 3, ArrivalTime := 2, BurstDuration := 1, Priority := 0 }]) ∧
      Less { ProcessID := 3, ArrivalTime := 2, BurstDuration := 1, Priority := 0 }
        { ProcessID := 2, ArrivalTime := 1, BurstDuration := 3, Priority := 0 } = true :=
  ⟨_, rfl, by decide, by decide, by decide⟩

/-! ## SJFPrioritySchedule: every process gets its row -/

theorem addToWaitingQueue_keeps_waiting {w a : List Process} {t : Int} {x : Process}
    (h : x ∈ w) : x ∈ (addToWaitingQueue w a t).1 := by
  simp only [addToWaitingQueue, List.mem_append, mem_sortQueue]
  exact Or.inl (Or.inl h)

theorem addToWaitingQueue_keeps_arrived {w a : List Process} {t : Int} {x : Process}
    (h : x ∈ a) : x ∈ (addToWaitingQueue w a t).2 ∨ x ∈ (addToWaitingQueue w a t).1 := by
  have hsplit := List.takeWhile_append_dropWhile (fun p => decide (p.ArrivalTime ≤ t)) a
  rw [← hsplit] at h
  simp only [addToWaitingQueue, List.mem_append]
  rcases List.mem_append.mp h with h1 | h1
  · exact Or.inr (Or.inr h1)
  · exact Or.inl h1

theorem setSlot_spec {sched sched1 : List (Option Row)} {idx : Int} {r : Row}
    (h : setSlot sched idx r = some sched1) :
    0 ≤ idx ∧ idx < sched.length ∧ sched1 = sched.set idx.toNat (some r) := by
  unfold setSlot at h
  split at h
  · rename_i hc
    simp only [Option.some.injEq] at h
    exact ⟨hc.1, hc.2, h.symm⟩
  · exact absurd h (by simp)

theorem covered_after_dispatch {ps : List Process} {t : Int} {a rest : List Process}
    {sch : List (Option Row)} {g : List TimeSlice} {cur : Process} {row : Row}
    {t1 : Int} {a1 w1 : List Process} {sch1 : List (Option Row)} {g1 : List TimeSlice}
    (hinj : ∀ p ∈ ps, ∀ p1 ∈ ps, p.ProcessID = p1.ProcessID → p = p1)
    (hpos : ∀ p ∈ ps, 1 ≤ p.ProcessID) (hcur : cur ∈ ps) (hrow : row.isFor cur)
    (hc : SJFCovered ps
      { serviceTime := t, arrived := a, waiting := cur :: rest, schedule := sch, gantt := g })
    (hs : setSlot sch (cur.ProcessID - 1) row = some sch1)
    (hw1 : ∀ x ∈ rest, x ∈ w1) (ha1 : ∀ x ∈ a, x ∈ a1 ∨ x ∈ w1) :
    SJFCovered ps
      { serviceTime := t1, arrived := a1, waiting := w1, schedule := sch1, gantt := g1 } := by
  obtain ⟨hlen, hcov⟩ := hc
  obtain ⟨h0, h1, rfl⟩ := setSlot_spec hs
  simp only at hlen hcov
  have hk : (cur.ProcessID - 1).toNat < sch.length := by omega
  have hcurslot : ∃ r, (sch.set (cur.ProcessID - 1).toNat (some row))[(cur.ProcessID - 1).toNat]?
      = some (some r) ∧ r.isFor cur := ⟨row, List.getElem?_set_self hk, hrow⟩
  refine ⟨by simpa using hlen, fun p hp => ?_⟩
  simp only
  rcases hcov p hp with h | h | ⟨r, hr1, hr2⟩
  · rcases ha1 p h with h2 | h2
    · exact Or.inl h2
    · exact Or.inr (Or.inl h2)
  · rcases List.mem_cons.mp h with h2 | h2
    · subst h2
      exact Or.inr (Or.inr hcurslot)
    · exact Or.inr (Or.inl (hw1 p h2))
  · by_cases hk2 : (cur.ProcessID - 1).toNat = (p.ProcessID - 1).toNat
    · have h3 := hpos p hp
      have h4 := hpos cur hcur
      have h5 : p = cur := hinj p hp cur hcur (by omega)
      subst h5
      exact Or.inr (Or.inr hcurslot)
    · refine Or.inr (Or.inr ⟨r, ?_, hr2⟩)
      rw [List.getElem?_set_ne hk2]
      exact hr1

theorem SJFPriorityIter_covered {ps : List Process} {st st1 : SJFState}
    (hinj : ∀ p ∈ ps, ∀ p1 ∈ ps, p.ProcessID = p1.ProcessID → p = p1)
    (hpos : ∀ p ∈ ps, 1 ≤ p.ProcessID) (hw : ∀ p ∈ st.waiting, p ∈ ps)
    (hc : SJFCovered ps st) (h : SJFPriorityIter st = some st1) : SJFCovered ps st1 := by
  obtain ⟨t, a, w, sch, g⟩ := st
  simp only at hw
  cases w with
  | nil =>
    cases a with
    | nil => simp [SJFPriorityIter] at h
    | cons x xs =>
      simp only [SJFPriorityIter, Option.some.injEq] at h
      subst h
      obtain ⟨hlen, hcov⟩ := hc
      refine ⟨hlen, fun p hp => ?_⟩
      simp only at hcov ⊢
      rcases hcov p hp with h1 | h1 | h1
      · rcases addToWaitingQueue_keeps_arrived (w := []) (t := x.ArrivalTime) h1 with h2 | h2
        · exact Or.inl h2
        · exact Or.inr (Or.inl h2)
      · exact absurd h1 (by simp)
      · exact Or.inr (Or.inr h1)
  | cons cur rest =>
    have hcur : cur ∈ ps := hw cur (List.mem_cons_self _ _)
    simp only [SJFPriorityIter] at h
    split at h
    · exact absurd h (by simp)
    · rename_i sch1 hs
      simp only [Option.some.injEq] at h
      subst h
      refine covered_after_dispatch hinj hpos hcur ⟨rfl, rfl, rfl, rfl⟩ hc hs ?_ ?_
      · intro x hx
        split
        · exact hx
        · split
          · exact addToWaitingQueue_keeps_waiting hx
          · exact hx
      · intro x hx
        split
        · exact Or.inl hx
        · split
          · exact addToWaitingQueue_keeps_arrived hx
          · exact Or.inl hx

theorem SJFPriorityLoop_covered {ps : List Process}
    (hinj : ∀ p ∈ ps, ∀ p1 ∈ ps, p.ProcessID = p1.ProcessID → p = p1)
    (hpos : ∀ p ∈ ps, 1 ≤ p.ProcessID) (fuel : Nat) {st st1 : SJFState}
    (hinv : SJFInv ps st) (hc : SJFCovered ps st)
    (h : SJFPriorityLoop fuel st = .done st1) :
    SJFCovered ps st1 ∧ st1.busy = false := by
  induction fuel generalizing st with
  | zero =>
    unfold SJFPriorityLoop at h
    split at h
    · exact absurd h (by simp)
    · rename_i hb
      simp only [Run.done.injEq] at h
      subst h
      exact ⟨hc, by simpa using hb⟩
  | succ n ih =>
    unfold SJFPriorityLoop at h
    split at h
    · split at h
      · exact absurd h (by simp)
      · rename_i st2 hst2
        exact ih (SJFPriorityIter_inv hinv hst2)
          (SJFPriorityIter_covered hinj hpos hinv.1 hc hst2) h
    · rename_i hb
      simp only [Run.done.injEq] at h
      subst h
      exact ⟨hc, by simpa using hb⟩

theorem SJFInit_covered {ps : List Process} {st0 : SJFState} (h : SJFInit ps = some st0) :
    SJFCovered ps st0 := by
  unfold SJFInit at h
  split at h
  · exact absurd h (by simp)
  · simp only [Option.some.injEq] at h
    subst h
    refine ⟨by simp, fun p hp => ?_⟩
    simp only
    rcases addToWaitingQueue_keeps_arrived hp with h2 | h2
    · exact Or.inl h2
    · exact Or.inr (Or.inl h2)

theorem idRange_nodup (n : Nat) : (idRange n).Nodup := by
  unfold idRange
  refine List.Nodup.map ?_ (List.nodup_range n)
  intro i j hij
  simp only at hij
  omega

theorem SJFPriority_table {ps : List Process}
    (hids : (ps.map (fun p => p.ProcessID)).Perm (idRange ps.length))
    {fuel : Nat} {out : SlotOutput} (h : SJFPrioritySchedule fuel ps = .done out) :
    out.schedule.length = ps.length ∧
      ∀ p ∈ ps, ∃ r, out.schedule[(p.ProcessID - 1).toNat]? = some (some r) ∧ r.isFor p := by
  have hnd : (ps.map (fun p => p.ProcessID)).Nodup :=
    (hids.nodup_iff).mpr (idRange_nodup _)
  have hinj : ∀ p ∈ ps, ∀ p1 ∈ ps, p.ProcessID = p1.ProcessID → p = p1 :=
    fun p hp p1 hp1 he => List.inj_on_of_nodup_map hnd hp hp1 he
  have hpos : ∀ p ∈ ps, 1 ≤ p.ProcessID := fun p hp =>
    (idRange_bounds (hids.mem_iff.mp (List.mem_map_of_mem _ hp))).1
  unfold SJFPrioritySchedule at h
  split at h
  · exact absurd h (by simp)
  · rename_i st0 h0
    split at h
    · rename_i st1 h1
      simp only [Run.done.injEq] at h
      subst h
      obtain ⟨⟨hlen, hcov⟩, hb⟩ :=
        SJFPriorityLoop_covered hinj hpos fuel (SJFInit_inv h0) (SJFInit_covered h0) h1
      simp only [SJFState.busy, Bool.or_eq_false_iff, decide_eq_false_iff_not,
        List.length_pos, ne_eq, not_not] at hb
      refine ⟨hlen, fun p hp => ?_⟩
      rcases hcov p hp with h2 | h2 | h2
      · rw [hb.2] at h2
        exact absurd h2 (by simp)
      · rw [hb.1] at h2
        exact absurd h2 (by simp)
      · exact h2
    · exact absurd h (by simp)
    · exact absurd h (by simp)

theorem SJFPriority_static_table {ps ps1 : List Process} (hperm : ps1.Perm ps)
    (hids : (ps.map (fun p => p.ProcessID)).Perm (idRange ps.length))
    {fuel fuel1 : Nat} {out out1 : SlotOutput}
    (h : SJFPrioritySchedule fuel ps = .done out)
    (h1 : SJFPrioritySchedule fuel1 ps1 = .done out1) :
    out1.schedule.map (Option.map Row.static) = out.schedule.map (Option.map Row.static) := by
  have hids1 : (ps1.map (fun p => p.ProcessID)).Perm (idRange ps1.length) := by
    rw [hperm.length_eq]
    exact (hperm.map _).trans hids
  obtain ⟨hlen, hrow⟩ := SJFPriority_table hids h
  obtain ⟨hlen1, hrow1⟩ := SJFPriority_table hids1 h1
  apply List.ext_getElem?
  intro i
  by_cases hi : i < ps.length
  · have hmem : ((i : Int) + 1) ∈ ps.map (fun p => p.ProcessID) := by
      rw [hids.mem_iff]
      simp only [idRange, List.mem_map, List.mem_range]
      exact ⟨i, hi, rfl⟩
    obtain ⟨p, hp, hpid⟩ := List.mem_map.mp hmem
    have hp1 : p ∈ ps1 := hperm.mem_iff.mpr hp
    obtain ⟨r, hr, hrp⟩ := hrow p hp
    obtain ⟨r1, hr1, hrp1⟩ := hrow1 p hp1
    have hidx : (p.ProcessID - 1).toNat = i := by omega
    rw [hidx] at hr hr1
    simp only [List.getElem?_map, hr, hr1, Option.map_some', Row.static]
    obtain ⟨a1, a2, a3, a4⟩ := hrp
    obtain ⟨b1, b2, b3, b4⟩ := hrp1
    rw [a1, a2, a3, a4, b1, b2, b3, b4]
  · have e1 : (out1.schedule.map (Option.map Row.static))[i]? = none :=
      List.getElem?_eq_none (by simp only [List.length_map]; rw [hlen1, hperm.length_eq]; omega)
    have e2 : (out.schedule.map (Option.map Row.static))[i]? = none :=
      List.getElem?_eq_none (by simp only [List.length_map]; rw [hlen]; omega)
    rw [e1, e2]

theorem SJFPriority_returns {ps : List Process}
    (hids : (ps.map (fun p => p.ProcessID)).Perm (idRange ps.length)) (hne : ps ≠ []) :
    ∃ fuel out, SJFPrioritySchedule fuel ps = .done out := by
  obtain ⟨st0, h0, hsafe⟩ := SJFInit_safe hids hne
  obtain ⟨st1, h1⟩ := SJFPriorityLoop_returns (SJFPriorityMeasure ps.length st0) st0 hsafe
    (le_refl _)
  exact ⟨SJFPriorityMeasure ps.length st0, { schedule := st1.schedule, gantt := st1.gantt },
    by simp only [SJFPrioritySchedule, h0, h1]⟩

/-! ## Claim C13 -/

/-- C13 (counterexample): `sortedPair` is ordered by arrival, has ids 1, 2,
non-negative arrivals and distinct positive bursts, and `swappedPair` is a
reordering of it; `SJFPrioritySchedule` reports wait 3, turnaround 6,
completion 6 for process 1 on `sortedPair` and wait 12, turnaround 15,
completion 15 on `swappedPair`: the two schedule tables differ. -/
theorem C13_order_changes_table :
    swappedPair.Perm sortedPair ∧
    sortedPair.Pairwise (fun a b => a.ArrivalTime ≤ b.ArrivalTime) ∧
    (sortedPair.map (fun p => p.ProcessID)).Perm (idRange sortedPair.length) ∧
    ∃ out out1,
      SJFPrioritySchedule 4 sortedPair = .done out ∧
      SJFPrioritySchedule 4 swappedPair = .done out1 ∧
      out.schedule[0]? = some (some
        { id := 1, priority := 0, burst := 3, arrival := 0, wait := 3, turnaround := 6,
          completion := 6 }) ∧
      out1.schedule[0]? = some (some
        { id := 1, priority := 0, burst := 3, arrival := 0, wait := 12, turnaround := 15,
          completion := 15 }) ∧
      out1.schedule ≠ out.schedule :=
  ⟨by decide, by decide, by decide, _, _, rfl, rfl, by decide, by decide, by decide⟩

/-- C13 (amended): for a non-empty process list `ps` with ids a permutation
of 1..n and every reordering `ps1` of it, `SJFPrioritySchedule` returns on
both lists, and whenever it returns the two tables hold, for every process,
a row in the slot of its id with that process's id, priority, burst and
arrival: the tables agree on these four columns.  Nothing is said about the
wait, turnaround and completion columns, which depend on the input order. -/
theorem C13_same_processes_in_table (ps ps1 : List Process) (hperm : ps1.Perm ps)
    (hids : (ps.map (fun p => p.ProcessID)).Perm (idRange ps.length)) (hne : ps ≠ []) :
    (∃ fuel out, SJFPrioritySchedule fuel ps = .done out) ∧
    (∃ fuel out1, SJFPrioritySchedule fuel ps1 = .done out1) ∧
    ∀ fuel fuel1 out out1, SJFPrioritySchedule fuel ps = .done out →
      SJFPrioritySchedule fuel1 ps1 = .done out1 →
      out1.schedule.map (Option.map Row.static) = out.schedule.map (Option.map Row.static) ∧
      ∀ p ∈ ps, ∃ r r1, out.schedule[(p.ProcessID - 1).toNat]? = some (some r) ∧
        out1.schedule[(p.ProcessID - 1).toNat]? = some (some r1) ∧ r.isFor p ∧ r1.isFor p := by
  have hids1 : (ps1.map (fun p => p.ProcessID)).Perm (idRange ps1.length) := by
    rw [hperm.length_eq]
    exact (hperm.map _).trans hids
  have hne1 : ps1 ≠ [] := fun e => hne (by simpa [e] using hperm.symm)
  refine ⟨SJFPriority_returns hids hne, SJFPriority_returns hids1 hne1, ?_⟩
  intro fuel fuel1 out out1 h h1
  refine ⟨SJFPriority_static_table hperm hids h h1, fun p hp => ?_⟩
  obtain ⟨r, hr, hrp⟩ := (SJFPriority_table hids h).2 p hp
  obtain ⟨r1, hr1, hrp1⟩ := (SJFPriority_table hids1 h1).2 p (hperm.mem_iff.mpr hp)
  exact ⟨r, r1, hr, hr1, hrp, hrp1⟩

theorem C13_same_processes_in_table_witness :
    (∃ fuel out, SJFPrioritySchedule fuel sortedPair = .done out) ∧
    (∃ fuel out1, SJFPrioritySchedule fuel swappedPair = .done out1) ∧
    ∀ fuel fuel1 out out1, SJFPrioritySchedule fuel sortedPair = .done out →
      SJFPrioritySchedule fuel1 swappedPair = .done out1 →
      out1.schedule.map (Option.map Row.static) = out.schedule.map (Option.map Row.static) ∧
      ∀ p ∈ sortedPair, ∃ r r1, out.schedule[(p.ProcessID - 1).toNat]? = some (some r) ∧
        out1.schedule[(p.ProcessID - 1).toNat]? = some (some r1) ∧ r.isFor p ∧ r1.isFor p :=
  C13_same_processes_in_table sortedPair swappedPair (by decide) (by decide) (by decide)

end Project1
